import Mathlib

/-! MySQL to Firestore migration script (`index.js`): model and verified properties.

The script pages through a MySQL table (`fetchMySQLDataInChunks`), converts every row
(`processData`) and writes the rows to Firestore in sub-batches (`uploadToFirestore`),
retrying every sub-batch with exponential backoff (`uploadBatch`); `migrateToFirestore`
opens the connection, runs this per table and closes the connection.

Modelling conventions.

* JavaScript objects are lists of entries in own-property order (array-index keys in
  ascending numeric order first, then the other keys in insertion order).
* The query and commit calls are oracles; everything observable that a function does
  is collected in a list of `Event`s, returned next to the function's result.
  Console output is not part of the model.
* An exception is the `error` side of `Except Err`; the value `undefined` returned by a
  function that falls off its end is `none`.
* `Math.pow(2, attempt) * 1000` is computed on natural numbers.
-/

set_option autoImplicit false

namespace Migration

/-! ## Data model -/

/-- Instant carried by a Firestore `Timestamp`, in milliseconds since the epoch. -/
structure Timestamp where
  millis : Int
  deriving DecidableEq, Repr

/-- Values that occur as a column of a `mysql2` row or as a field of a Firestore document.
The payload of `number` stands for the double, which the script never inspects;
`other` stands for every value of a kind that `processData` does not recognise. -/
inductive Value where
  | null
  | bool (b : Bool)
  | number (n : Int)
  | string (s : String)
  | date (millis : Int)
  | bigint (n : Int)
  | buffer (bytes : List (Fin 256))
  | timestamp (t : Timestamp)
  | other (tag : Nat)
  deriving DecidableEq, Repr

/-- Object as the list of its entries, as `Object.entries` returns them. -/
abbrev Obj := List (String × Value)

/-- Row of the source table. -/
abbrev Row := Obj

/-- Document written to the target store. -/
abbrev Doc := Obj

/-- Numeric value of a key that is an array index (a canonical decimal numeral below
`2 ^ 32 - 1`); such keys are enumerated first, in ascending order. -/
def arrayIndex (k : String) : Option Nat :=
  let cs := k.data
  if cs ≠ [] ∧ cs.all Char.isDigit = true ∧ (cs.head? ≠ some '0' ∨ cs.length = 1) then
    let n := cs.foldl (fun a c => 10 * a + (c.toNat - 48)) 0
    if n < 4294967295 then some n else none
  else none

/-- The assignment `o[k] = v` on an object that inherits from `Object.prototype`. An
existing key keeps its place. A new key `__proto__` reaches the inherited setter and adds
no property. Any other new key is added: an array-index key after the smaller array-index
keys, any other key last. -/
def objSet (o : Obj) (k : String) (v : Value) : Obj :=
  if o.any (fun e => e.1 == k) then
    o.map (fun e => if e.1 = k then (k, v) else e)
  else if k = "__proto__" then o
  else
    match arrayIndex k with
    | some n =>
      let smaller : String × Value → Bool := fun e =>
        match arrayIndex e.1 with
        | some m => decide (m < n)
        | none => false
      o.takeWhile smaller ++ (k, v) :: o.dropWhile smaller
    | none => o ++ [(k, v)]

/-- Entry `a` is enumerated before entry `b` in own-property order. -/
def keyBefore (a b : String × Value) : Prop :=
  match arrayIndex a.1, arrayIndex b.1 with
  | some m, some n => m < n
  | some _, none => True
  | none, some _ => False
  | none, none => a.1 ≠ b.1

instance (a b : String × Value) : Decidable (keyBefore a b) := by
  unfold keyBefore
  split <;> infer_instance

/-- A list of entries is the entry list of an object: the keys are pairwise different
and stand in own-property order. -/
def IsObject (o : Obj) : Prop := o.Pairwise keyBefore ∧ (o.map Prod.fst).Nodup

instance (o : Obj) : Decidable (IsObject o) := by
  unfold IsObject
  infer_instance

/-- A list of entries is the entry list of a row that `mysql2` returns: an object whose
properties were assigned by column name, so that it has no own property `__proto__`. -/
def IsRow (row : Row) : Prop := IsObject row ∧ ∀ e ∈ row, e.1 ≠ "__proto__"

instance (row : Row) : Decidable (IsRow row) := by
  unfold IsRow
  infer_instance

/-! ## Base64, as `Buffer.prototype.toString('base64')` -/

/-- The base64 alphabet. -/
def base64Char (n : Nat) : Char :=
  if n < 26 then Char.ofNat (65 + n)
  else if n < 52 then Char.ofNat (97 + (n - 26))
  else if n < 62 then Char.ofNat (48 + (n - 52))
  else if n = 62 then '+'
  else '/'

/-- Base64 characters of a byte sequence, with `=` padding. -/
def base64Chars : List (Fin 256) → List Char
  | [] => []
  | [a] =>
    [base64Char (a.val / 4), base64Char (a.val % 4 * 16), '=', '=']
  | [a, b] =>
    [base64Char (a.val / 4), base64Char (a.val % 4 * 16 + b.val / 16),
     base64Char (b.val % 16 * 4), '=']
  | a :: b :: c :: rest =>
    base64Char (a.val / 4) :: base64Char (a.val % 4 * 16 + b.val / 16) ::
      base64Char (b.val % 16 * 4 + c.val / 64) :: base64Char (c.val % 64) :: base64Chars rest

/-- Base64 text of a byte sequence. -/
def base64 (bytes : List (Fin 256)) : String := String.mk (base64Chars bytes)

/-! ## `processData` -/

/-- Modelled from the spec: `admin.firestore.Timestamp.fromDate` of the `firebase-admin`
library, which is not part of the repository; the target-store timestamp of the same
instant. -/
def Timestamp.fromDate (millis : Int) : Timestamp := ⟨millis⟩

/-- Body of the loop of `processData`: the value stored for one field. -/
def processValue (value : Value) : Value :=
  match value with
  | .date millis => .timestamp (Timestamp.fromDate millis)
  | .bigint n => .string (toString n)
  | .buffer bytes => .string (base64 bytes)
  | v => v

/-- `processData(row)`: a fresh object that receives every entry of the row in turn. -/
def processData (row : Row) : Doc :=
  row.foldl (fun processedRow e => objSet processedRow e.1 (processValue e.2)) []

/-! ## Effects -/

deriving instance DecidableEq for Except

/-- Exceptions: a rejected `batch.commit()`, a failed query, or anything else. -/
inductive Err where
  | commit (code : Nat)
  | query (code : Nat)
  | other (code : Nat)
  deriving DecidableEq, Repr

/-- Observable actions of the script.
`commit j c docs ok` is one execution of the `try` block of `uploadBatch` for the batch
that its caller numbers `j`: a write batch is created, every document of `docs` is staged
under a fresh reference of collection `c`, and `batch.commit()` is awaited; `ok` tells
whether the block ran to its end.
`delay ms` is `await delay(ms)`, and `query t l o` is the statement
`SELECT * FROM t LIMIT l OFFSET o`. `connect` is the call of `mysql.createConnection`,
`initializeApp` the call of `initializeFirebase`, and `close` the call of
`connection.end()`. -/
inductive Event where
  | connect
  | initializeApp
  | query (table : String) (limit offset : Nat)
  | commit (batchNumber : Nat) (collection : String) (docs : List Doc) (ok : Bool)
  | delay (ms : Nat)
  | close
  deriving DecidableEq, Repr

/-- Firestore handle: `db batchNumber attempt` is the outcome of the `try` block of
`uploadBatch` when it runs for batch `batchNumber` with the counter `attempt`. Within one
call of `uploadToFirestore` every such pair occurs at most once. -/
abbrev DB := Nat → Nat → Except Err Unit

/-- Failure record pushed by `uploadToFirestore`. -/
structure Failure where
  batchNumber : Nat
  startIndex : Nat
  endIndex : Nat
  deriving DecidableEq, Repr

/-- The collection named in `db.collection('fcc_amateur_aamir')`. -/
def targetCollection : String := "fcc_amateur_aamir"

/-- Default of the parameter `retries` of `uploadBatch`. -/
def defaultRetries : Int := 3

/-- The constant `batchSize` of `uploadToFirestore`. -/
def defaultBatchSize : Nat := 250

/-- Default of the parameter `chunkSize` of `fetchMySQLDataInChunks`. -/
def defaultChunkSize : Nat := 10000

set_option linter.unusedVariables false

/-! ## `uploadBatch` -/

/-- The `while (attempt < retries)` loop of `uploadBatch`, entered with the counter
`attempt`. The first argument bounds the number of iterations; `uploadBatch` passes
`retries`, which the loop never exceeds (`uploadBatchLoop_fuel`). -/
def uploadBatchLoop (db : DB) (docs : List Doc) (batchNumber : Nat) (retries : Int) :
    Nat → Nat → Except Err (Option Bool) × List Event
  | 0, _ => (.ok none, [])
  | fuel + 1, attempt =>
    if (attempt : Int) < retries then
      match db batchNumber attempt with
      | .ok _ => (.ok (some true), [.commit batchNumber targetCollection docs true])
      | .error error =>
        if ((attempt + 1 : Nat) : Int) = retries then
          (.error error, [.commit batchNumber targetCollection docs false])
        else
          let rest := uploadBatchLoop db docs batchNumber retries fuel (attempt + 1)
          (rest.1,
            .commit batchNumber targetCollection docs false ::
              .delay (2 ^ (attempt + 1) * 1000) :: rest.2)
    else (.ok none, [])

/-- `uploadBatch(db, collection, docs, batchNumber, retries)`. -/
def uploadBatch (db : DB) (collection : String) (docs : List Doc) (batchNumber : Nat)
    (retries : Int) : Except Err (Option Bool) × List Event :=
  uploadBatchLoop db docs batchNumber retries retries.toNat 0

/-! ## `uploadToFirestore` -/

/-- What `uploadToFirestore` calls for every sub-batch: `uploadBatch` with its last
parameter left to the default. -/
abbrev Uploader := DB → String → List Doc → Nat → Except Err (Option Bool) × List Event

/-- The `for (let i = 0; i < data.length; i += batchSize)` loop of `uploadToFirestore`,
entered with the index `i` and the list `failures`. The first argument bounds the number
of iterations. -/
def uploadLoop (upload : Uploader) (batchSize : Nat) (db : DB) (data : List Row)
    (collection : String) : Nat → Nat → List Failure → List Failure × List Event
  | 0, _, failures => (failures, [])
  | fuel + 1, i, failures =>
    if i < data.length then
      let batchNumber := i / batchSize + 1
      let chunk := ((data.drop i).take batchSize).map processData
      match upload db collection chunk batchNumber with
      | (.ok _, t) =>
        let rest := uploadLoop upload batchSize db data collection fuel (i + batchSize) failures
        (rest.1, t ++ .delay 500 :: rest.2)
      | (.error _, t) =>
        let rest := uploadLoop upload batchSize db data collection fuel (i + batchSize)
          (failures ++ [⟨batchNumber, i, i + chunk.length⟩])
        (rest.1, t ++ rest.2)
    else (failures, [])

/-- `uploadToFirestore(data, collection)` with the helper and the sub-batch size as
parameters. `admin` is the outcome of `admin.firestore()`. For `batchSize ≥ 1` the loop
makes at most `data.length` iterations. -/
def uploadToFirestoreVia (upload : Uploader) (batchSize : Nat) (admin : Except Err DB)
    (data : List Row) (collection : String) : Except Err (List Failure) × List Event :=
  match admin with
  | .error e => (.error e, [])
  | .ok db =>
    let r := uploadLoop upload batchSize db data collection data.length 0 []
    (.ok r.1, r.2)

/-- The helper as `uploadToFirestore` calls it, for a retry limit `retries`. -/
def uploadBatchWith (retries : Int) : Uploader :=
  fun db collection docs batchNumber => uploadBatch db collection docs batchNumber retries

/-- `uploadToFirestore(data, collection)`. -/
def uploadToFirestore (admin : Except Err DB) (data : List Row) (collection : String) :
    Except Err (List Failure) × List Event :=
  uploadToFirestoreVia (uploadBatchWith defaultRetries) defaultBatchSize admin data collection

/-! ## `fetchMySQLDataInChunks` -/

/-- Source connection: `connection k table limit offset` is the outcome of the `k`-th
call (from 0) of `connection.query`, which asks for `limit` rows of `table` from
`offset` on. -/
abbrev Connection := Nat → String → Nat → Nat → Except Err (List Row)

/-- Connection to a table that does not change: every query answers from `rows`. -/
def stableConnection (rows : List Row) : Connection :=
  fun _ _ limit offset => .ok ((rows.drop offset).take limit)

/-- The `while (hasMore)` loop of the generator `fetchMySQLDataInChunks` together with the
`for await` loop that consumes it: `body rows s` is the loop body run on the yielded page
with the consumer state `s`, and a `yield` hands over to it. The loop is entered with
`hasMore` true, `queries` queries issued and the offset `offset`. The first argument
bounds the number of iterations; `none` tells that it was used up. -/
def fetchLoop {σ : Type} (connection : Connection) (table : String) (chunkSize : Nat)
    (body : List Row → σ → Except Err σ × List Event) :
    Nat → Nat → Nat → σ → Option (Except Err σ) × List Event
  | 0, _, _, _ => (none, [])
  | fuel + 1, queries, offset, s =>
    match connection queries table chunkSize offset with
    | .error e => (some (.error e), [.query table chunkSize offset])
    | .ok rows =>
      if rows.length > 0 then
        match body rows s with
        | (.error e, t) => (some (.error e), .query table chunkSize offset :: t)
        | (.ok s', t) =>
          if rows.length = chunkSize then
            let rest := fetchLoop connection table chunkSize body fuel (queries + 1)
              (offset + rows.length) s'
            (rest.1, .query table chunkSize offset :: (t ++ rest.2))
          else (some (.ok s'), .query table chunkSize offset :: t)
      else if rows.length = chunkSize then
        let rest := fetchLoop connection table chunkSize body fuel (queries + 1) offset s
        (rest.1, .query table chunkSize offset :: rest.2)
      else (some (.ok s), [.query table chunkSize offset])

/-- `for await (const chunk of fetchMySQLDataInChunks(connection, table, chunkSize)) body`. -/
def fetchMySQLDataInChunks {σ : Type} (connection : Connection) (table : String)
    (chunkSize : Nat) (body : List Row → σ → Except Err σ × List Event) (fuel : Nat)
    (s : σ) : Option (Except Err σ) × List Event :=
  fetchLoop connection table chunkSize body fuel 0 0 s

/-- Consumer that only collects the yielded pages. -/
def collectChunks (rows : List Row) (chunks : List (List Row)) :
    Except Err (List (List Row)) × List Event :=
  (.ok (chunks ++ [rows]), [])

/-! ## The per-table loop of `migrateToFirestore` -/

/-- State of the per-table loop: the number of calls of `uploadToFirestore` made so far,
the failure list returned by each of them, and the accumulated list `failures`. -/
structure TableState where
  calls : Nat
  returned : List (List Failure)
  failures : List Failure
  deriving DecidableEq, Repr

/-- Body of the `for await` loop of `migrateToFirestore`:
`chunkFailures = await uploadToFirestore(chunk, table); failures.push(...chunkFailures)`.
`admin c` is the outcome of `admin.firestore()` in the `c`-th call of `uploadToFirestore`. -/
def migrateChunkVia (upload : Uploader) (batchSize : Nat) (admin : Nat → Except Err DB)
    (table : String) (chunk : List Row) (s : TableState) : Except Err TableState × List Event :=
  match uploadToFirestoreVia upload batchSize (admin s.calls) chunk table with
  | (.ok chunkFailures, t) =>
    (.ok ⟨s.calls + 1, s.returned ++ [chunkFailures], s.failures ++ chunkFailures⟩, t)
  | (.error e, t) => (.error e, t)

/-- The per-table part of `migrateToFirestore`, with the helper, the page size and the
sub-batch size as parameters. -/
def migrateTableVia (upload : Uploader) (chunkSize batchSize : Nat)
    (admin : Nat → Except Err DB) (connection : Connection) (table : String) (fuel : Nat) :
    Option (Except Err TableState) × List Event :=
  fetchMySQLDataInChunks connection table chunkSize
    (migrateChunkVia upload batchSize admin table) fuel ⟨0, [], []⟩

/-- The per-table part of `migrateToFirestore`. -/
def migrateTable (admin : Nat → Except Err DB) (connection : Connection) (table : String)
    (fuel : Nat) : Option (Except Err TableState) × List Event :=
  migrateTableVia (uploadBatchWith defaultRetries) defaultChunkSize defaultBatchSize
    admin connection table fuel

/-! ## `migrateToFirestore` -/

/-- The list `tablesToMigrate`. -/
def tablesToMigrate : List String := ["en"]

/-- Outcomes of the calls that one run of `migrateToFirestore` makes to its collaborators:
`mysql.createConnection`, `initializeFirebase`, `admin.firestore()` (by table and by the
number of earlier calls of `uploadToFirestore` for that table) and `connection.end()`. -/
structure World where
  createConnection : Except Err Connection
  initializeFirebase : Except Err Unit
  firestore : String → Nat → Except Err DB
  connectionEnd : Except Err Unit

/-- The loop `for (const table of tablesToMigrate)`; `fuel` bounds the number of
iterations of every page loop. -/
def migrateTables (firestore : String → Nat → Except Err DB) (connection : Connection)
    (fuel : Nat) : List String → Option (Except Err Unit) × List Event
  | [] => (some (.ok ()), [])
  | table :: rest =>
    match migrateTable (firestore table) connection table fuel with
    | (none, t) => (none, t)
    | (some (.error e), t) => (some (.error e), t)
    | (some (.ok _), t) =>
      let r := migrateTables firestore connection fuel rest
      (r.1, t ++ r.2)

/-- The `try` block of `migrateToFirestore` from the point where the connection is open. -/
def migrateBody (w : World) (connection : Connection) (fuel : Nat) :
    Option (Except Err Unit) × List Event :=
  match w.initializeFirebase with
  | .error e => (some (.error e), [.initializeApp])
  | .ok _ =>
    let r := migrateTables w.firestore connection fuel tablesToMigrate
    (r.1, .initializeApp :: r.2)

/-- `migrateToFirestore()`. The `catch` block logs and throws the error again; the
`finally` block closes the connection when one was opened, and an error of
`connection.end()` takes the place of the outcome of the `try` block. `none` tells that
a page loop used up `fuel`. -/
def migrateToFirestore (w : World) (fuel : Nat) : Option (Except Err Unit) × List Event :=
  match w.createConnection with
  | .error e => (some (.error e), [.connect])
  | .ok connection =>
    match migrateBody w connection fuel with
    | (none, t) => (none, .connect :: t)
    | (some outcome, t) =>
      match w.connectionEnd with
      | .ok _ => (some outcome, .connect :: (t ++ [.close]))
      | .error e => (some (.error e), .connect :: (t ++ [.close]))

/-! ## Auxiliary definitions of the statements -/

/-- Ceiling of `l / b`. -/
def ceilDiv (l b : Nat) : Nat := (l + b - 1) / b

/-- The slice `data.slice(j * b, j * b + b)`. -/
def sliceOf (b : Nat) (data : List Row) (j : Nat) : List Row := (data.drop (j * b)).take b

/-- Documents of sub-batch `j + 1`: `processData` mapped over the slice. -/
def batchDocs (b : Nat) (data : List Row) (j : Nat) : List Doc :=
  (sliceOf b data j).map processData

/-- Trace of an upload of `docs` as batch `j` whose first `n` attempts fail and are
followed by a backoff: attempt `i + 1` fails and is followed by `2 ^ (i + 1) * 1000` ms. -/
def failedAttempts (j : Nat) (docs : List Doc) (n : Nat) : List Event :=
  (List.range n).flatMap
    (fun i => [Event.commit j targetCollection docs false, Event.delay (2 ^ (i + 1) * 1000)])

/-- Whether the attempts `0 .. r - 1` of batch `j` all fail. -/
def failsAll (db : DB) (j r : Nat) : Bool :=
  (List.range r).all (fun a => match db j a with
    | .error _ => true
    | .ok _ => false)

/-- The error of attempt `a` of batch `j`, when that attempt fails. -/
def errorOf (db : DB) (j a : Nat) : Err :=
  match db j a with
  | .error e => e
  | .ok _ => .other 0

/-- The failure record of sub-batch `j + 1` of a chunk of `l` rows. -/
def failureOf (b l j : Nat) : Failure := ⟨j + 1, j * b, min ((j + 1) * b) l⟩

/-- What the list `failures` receives for sub-batch `j + 1`. -/
def batchRecord (upload : Uploader) (b : Nat) (db : DB) (data : List Row) (c : String)
    (j : Nat) : Option Failure :=
  match (upload db c (batchDocs b data j) (j + 1)).1 with
  | .ok _ => none
  | .error _ => some (failureOf b data.length j)

/-- What the trace receives for sub-batch `j + 1`: the trace of the helper and, when
the helper returns, the pause between batches. -/
def batchTrace (upload : Uploader) (b : Nat) (db : DB) (data : List Row) (c : String)
    (j : Nat) : List Event :=
  (upload db c (batchDocs b data j) (j + 1)).2 ++
    match (upload db c (batchDocs b data j) (j + 1)).1 with
    | .ok _ => [Event.delay 500]
    | .error _ => []

/-- The failure list that `uploadToFirestore` returns for page `k` of a stable table. -/
def chunkFailures (upload : Uploader) (b : Nat) (dbs : Nat → DB) (rows : List Row)
    (table : String) (p k : Nat) : List Failure :=
  (uploadLoop upload b (dbs k) (sliceOf p rows k) table (sliceOf p rows k).length 0 []).1

/-- The trace of the call of `uploadToFirestore` for page `k` of a stable table. -/
def chunkTrace (upload : Uploader) (b : Nat) (dbs : Nat → DB) (rows : List Row)
    (table : String) (p k : Nat) : List Event :=
  (uploadLoop upload b (dbs k) (sliceOf p rows k) table (sliceOf p rows k).length 0 []).2

/-- Consumer of the pages that never throws: it moves from the state `s` to `st rows s`
and leaves the trace `tr rows s`. -/
def consumer {σ : Type} (st : List Row → σ → σ) (tr : List Row → σ → List Event) :
    List Row → σ → Except Err σ × List Event :=
  fun rows s => (.ok (st rows s), tr rows s)

/-- Trace of `n` rounds of query and consumption, from the page `i` and the consumer
state `s` on, when query `i` asks for `p` rows from offset `i * p` and yields `pages i`. -/
def yieldedTrace {σ : Type} (table : String) (p : Nat) (st : List Row → σ → σ)
    (tr : List Row → σ → List Event) (pages : Nat → List Row) : Nat → Nat → σ → List Event
  | 0, _, _ => []
  | n + 1, i, s =>
    Event.query table p (i * p) ::
      (tr (pages i) s ++ yieldedTrace table p st tr pages n (i + 1) (st (pages i) s))

/-- Whether an event is not a commit into a collection other than the fixed one. -/
def intoTarget (e : Event) : Bool :=
  match e with
  | .commit _ c _ _ => c == targetCollection
  | _ => true

/-- A run whose connection opens and closes without error, whose initialisation of the
target has the outcome `init` and in which every call of `admin.firestore()` has the
outcome `admin`. -/
def worldOf (connection : Connection) (init : Except Err Unit) (admin : Except Err DB) :
    World :=
  ⟨.ok connection, init, fun _ _ => admin, .ok ()⟩

/-- A table of `n` rows with the single column `id`, numbered from 0. -/
def idRows (n : Nat) : List Row :=
  (List.range n).map (fun i => [("id", Value.number (Int.ofNat i))])

/-- Commit attempts of a trace, as the pair of the batch number and the outcome. -/
def commitAttempts (t : List Event) : List (Nat × Bool) :=
  t.filterMap (fun e => match e with
    | .commit j _ _ ok => some (j, ok)
    | _ => none)

/-- Delays of a trace, in milliseconds. -/
def delays (t : List Event) : List Nat :=
  t.filterMap (fun e => match e with
    | .delay ms => some ms
    | _ => none)

/-- Documents of the successful commits of a trace, in order. -/
def committedDocs (t : List Event) : List Doc :=
  t.flatMap (fun e => match e with
    | .commit _ _ docs true => docs
    | _ => [])

/-- Document lists staged by the commit attempts of a trace, in order. -/
def stagedDocs (t : List Event) : List (String × List Doc) :=
  t.filterMap (fun e => match e with
    | .commit _ c docs _ => some (c, docs)
    | _ => none)

/-- Successful commits of a trace, as the pair of the batch number and the number of
documents. -/
def committedSizes (t : List Event) : List (Nat × Nat) :=
  t.filterMap (fun e => match e with
    | .commit j _ docs true => some (j, docs.length)
    | _ => none)

/-- Queries of a trace, as the pair of limit and offset. -/
def queriesOf (t : List Event) : List (Nat × Nat) :=
  t.filterMap (fun e => match e with
    | .query _ l o => some (l, o)
    | _ => none)

example : processData [("id", .bigint 5), ("at", .date 1000), ("raw", .buffer [77, 97, 110])] =
    [("id", .string "5"), ("at", .timestamp ⟨1000⟩), ("raw", .string "TWFu")] := by decide

example : processData [("1", .bigint (-5)), ("7", .null), ("a", .buffer [77, 97])] =
    [("1", .string "-5"), ("7", .null), ("a", .string "TWE=")] := by decide

example : IsRow [("1", .bigint (-5)), ("7", .null), ("a", .buffer [77, 97])] := by decide

example : processData [("a", .null), ("__proto__", .number 1)] = [("a", .null)] := by decide


/-! ## Lemmas on `uploadBatch` -/

/-- One more iteration than `retries` allows changes nothing: the bound passed by
`uploadBatch` is never the reason for which the loop stops. -/
theorem uploadBatchLoop_fuel (db : DB) (docs : List Doc) (j : Nat) (retries : Int) :
    ∀ (fuel attempt : Nat), retries.toNat ≤ attempt + fuel →
      uploadBatchLoop db docs j retries (fuel + 1) attempt =
        uploadBatchLoop db docs j retries fuel attempt := by
  intro fuel
  induction fuel with
  | zero =>
    intro attempt h
    have : ¬ ((attempt : Int) < retries) := by omega
    simp [uploadBatchLoop, this]
  | succ fuel ih =>
    intro attempt h
    rw [uploadBatchLoop]
    conv_rhs => rw [uploadBatchLoop]
    split
    · split
      · rfl
      · split
        · rfl
        · rw [ih (attempt + 1) (by omega)]
    · rfl

/-- While attempts fail and the limit is not reached, the loop records the failed
attempt and its backoff and goes on. -/
theorem uploadBatchLoop_failed (db : DB) (docs : List Doc) (j : Nat) (retries : Int)
    (err : Nat → Err) :
    ∀ (n fuel : Nat), ((n : Nat) : Int) < retries →
      (∀ i, i < n → db j i = .error (err i)) →
      uploadBatchLoop db docs j retries (n + fuel) 0 =
        ((uploadBatchLoop db docs j retries fuel n).1,
          failedAttempts j docs n ++ (uploadBatchLoop db docs j retries fuel n).2) := by
  intro n
  induction n with
  | zero => intro fuel _ _; simp [failedAttempts]
  | succ n ih =>
    intro fuel hn hdb
    have h1 := ih (fuel + 1) (by omega) (fun i hi => hdb i (by omega))
    have h2 : n + (fuel + 1) = n + 1 + fuel := by omega
    rw [← h2, h1]
    have h3 : ((n : Nat) : Int) < retries := by omega
    have h4 : ¬ (((n + 1 : Nat) : Int) = retries) := by omega
    rw [uploadBatchLoop]
    simp only [h3, if_true, hdb n (by omega), h4, if_false]
    simp [failedAttempts, List.range_succ, List.flatMap_append]

theorem failedAttempts_succ (j : Nat) (docs : List Doc) (n : Nat) :
    failedAttempts j docs (n + 1) = failedAttempts j docs n ++
      [Event.commit j targetCollection docs false, Event.delay (2 ^ (n + 1) * 1000)] := by
  simp [failedAttempts, List.range_succ, List.flatMap_append]

theorem commitAttempts_append (s t : List Event) :
    commitAttempts (s ++ t) = commitAttempts s ++ commitAttempts t := by
  simp [commitAttempts, List.filterMap_append]

theorem delays_append (s t : List Event) : delays (s ++ t) = delays s ++ delays t := by
  simp [delays, List.filterMap_append]

theorem stagedDocs_append (s t : List Event) :
    stagedDocs (s ++ t) = stagedDocs s ++ stagedDocs t := by
  simp [stagedDocs, List.filterMap_append]

theorem replicate_snoc {α : Type} (n : Nat) (a : α) :
    List.replicate n a ++ [a] = List.replicate (n + 1) a := by
  induction n with
  | zero => rfl
  | succ n ih => simp [List.replicate_succ, ih]

theorem commitAttempts_failedAttempts (j : Nat) (docs : List Doc) (n : Nat) :
    commitAttempts (failedAttempts j docs n) = List.replicate n (j, false) := by
  induction n with
  | zero => rfl
  | succ n ih =>
    rw [failedAttempts_succ, commitAttempts_append, ih, ← replicate_snoc]
    rfl

theorem delays_failedAttempts (j : Nat) (docs : List Doc) (n : Nat) :
    delays (failedAttempts j docs n) = (List.range n).map (fun i => 2 ^ (i + 1) * 1000) := by
  induction n with
  | zero => rfl
  | succ n ih =>
    rw [failedAttempts_succ, delays_append, ih, List.range_succ, List.map_append]
    rfl

theorem stagedDocs_failedAttempts (j : Nat) (docs : List Doc) (n : Nat) :
    stagedDocs (failedAttempts j docs n) = List.replicate n (targetCollection, docs) := by
  induction n with
  | zero => rfl
  | succ n ih =>
    rw [failedAttempts_succ, stagedDocs_append, ih, ← replicate_snoc]
    rfl

/-- A batch whose first `r` attempts all fail: `r` attempts, `r - 1` backoffs, and the
error of the last attempt is thrown. -/
theorem uploadBatch_exhausted (db : DB) (collection : String) (docs : List Doc) (j r : Nat)
    (err : Nat → Err) (hr : 1 ≤ r) (hdb : ∀ i, i < r → db j i = .error (err i)) :
    uploadBatch db collection docs j (r : Int) =
      (.error (err (r - 1)),
        failedAttempts j docs (r - 1) ++ [Event.commit j targetCollection docs false]) := by
  obtain ⟨n, rfl⟩ : ∃ n, r = n + 1 := ⟨r - 1, by omega⟩
  have h := uploadBatchLoop_failed db docs j ((n + 1 : Nat) : Int) err n 1 (by omega)
    (fun i hi => hdb i (by omega))
  have hlast : uploadBatchLoop db docs j ((n + 1 : Nat) : Int) 1 n =
      (.error (err n), [Event.commit j targetCollection docs false]) := by
    have h3 : ((n : Nat) : Int) < ((n + 1 : Nat) : Int) := by omega
    rw [uploadBatchLoop]
    simp only [h3, if_true, hdb n (by omega)]
  unfold uploadBatch
  rw [Int.toNat_ofNat, h, hlast]
  simp

/-- A batch whose attempt `k` is the first to succeed, `k` within the limit: `k` attempts,
`k - 1` backoffs, and `true` is returned. -/
theorem uploadBatch_succeeded (db : DB) (collection : String) (docs : List Doc) (j r k : Nat)
    (err : Nat → Err) (hk : 1 ≤ k) (hkr : k ≤ r)
    (hdb : ∀ i, i < k - 1 → db j i = .error (err i)) (hok : db j (k - 1) = .ok ()) :
    uploadBatch db collection docs j (r : Int) =
      (.ok (some true),
        failedAttempts j docs (k - 1) ++ [Event.commit j targetCollection docs true]) := by
  obtain ⟨n, rfl⟩ : ∃ n, k = n + 1 := ⟨k - 1, by omega⟩
  obtain ⟨m, rfl⟩ : ∃ m, r = n + (m + 1) := ⟨r - n - 1, by omega⟩
  simp only [Nat.add_sub_cancel] at hdb hok
  have h := uploadBatchLoop_failed db docs j ((n + (m + 1) : Nat) : Int) err n (m + 1)
    (by omega) hdb
  have hlast : uploadBatchLoop db docs j ((n + (m + 1) : Nat) : Int) (m + 1) n =
      (.ok (some true), [Event.commit j targetCollection docs true]) := by
    have h3 : ((n : Nat) : Int) < ((n + (m + 1) : Nat) : Int) := by omega
    rw [uploadBatchLoop]
    simp only [h3, if_true, hok]
  unfold uploadBatch
  rw [Int.toNat_ofNat, h, hlast]
  simp

/-! ## Lemmas on `uploadToFirestore` -/

theorem lt_ceilDiv (l b j : Nat) (hb : 0 < b) : j < ceilDiv l b ↔ j * b < l := by
  unfold ceilDiv
  rw [Nat.lt_iff_add_one_le, Nat.le_div_iff_mul_le hb, Nat.succ_mul]
  omega

theorem ceilDiv_le (l b : Nat) (hb : 0 < b) : ceilDiv l b ≤ l := by
  by_contra h
  have h1 : l < ceilDiv l b := by omega
  rw [lt_ceilDiv l b l hb] at h1
  have : l * 1 ≤ l * b := Nat.mul_le_mul_left l hb
  omega

theorem length_sliceOf (b : Nat) (data : List Row) (j : Nat) :
    (sliceOf b data j).length = min b (data.length - j * b) := by
  simp [sliceOf]

theorem length_batchDocs (b : Nat) (data : List Row) (j : Nat) :
    (batchDocs b data j).length = min b (data.length - j * b) := by
  simp [batchDocs, length_sliceOf]

/-- The loop of `uploadToFirestore`, entered at the start of sub-batch `j + 1` with at
least as many iterations allowed as sub-batches remain, handles the remaining sub-batches
one after the other. -/
theorem uploadLoop_eq (upload : Uploader) (b : Nat) (db : DB) (data : List Row) (c : String)
    (hb : 0 < b) :
    ∀ (n j fuel : Nat) (fs : List Failure), n ≤ fuel → j + n = ceilDiv data.length b →
      uploadLoop upload b db data c fuel (j * b) fs =
        (fs ++ (List.range' j n).filterMap (batchRecord upload b db data c),
          (List.range' j n).flatMap (batchTrace upload b db data c)) := by
  intro n
  induction n with
  | zero =>
    intro j fuel fs _ hj
    have h1 : ¬ (j * b < data.length) := by
      rw [← lt_ceilDiv data.length b j hb]
      omega
    cases fuel <;> simp [uploadLoop, h1]
  | succ n ih =>
    intro j fuel fs hfuel hj
    obtain ⟨fuel, rfl⟩ : ∃ f, fuel = f + 1 := ⟨fuel - 1, by omega⟩
    have h1 : j * b < data.length := by
      rw [← lt_ceilDiv data.length b j hb]
      omega
    have h2 : j * b / b = j := Nat.mul_div_cancel j hb
    have h3 : j * b + b = (j + 1) * b := (Nat.succ_mul j b).symm
    have h4 : j * b + min b (data.length - j * b) = min ((j + 1) * b) data.length := by
      rw [← h3]
      omega
    have hlen := length_batchDocs b data j
    rw [uploadLoop]
    simp only [h1, if_true, h2, h3]
    rcases hup : upload db c (batchDocs b data j) (j + 1) with ⟨res, t⟩
    have hup2 : upload db c (List.map processData (List.take b (List.drop (j * b) data)))
        (j + 1) = (res, t) := hup
    cases res with
    | error e =>
      simp only [hup2]
      rw [ih (j + 1) fuel _ (by omega) (by omega)]
      simp [List.range'_succ, batchRecord, batchTrace, hup, failureOf, h4]
    | ok v =>
      simp only [hup2]
      rw [ih (j + 1) fuel _ (by omega) (by omega)]
      simp [List.range'_succ, batchRecord, batchTrace, hup]

/-- With a handle and a positive sub-batch size, `uploadToFirestore` returns the records
of the sub-batches for which the helper threw, and its trace is the sequence of the
traces of all sub-batches. -/
theorem uploadToFirestoreVia_eq (upload : Uploader) (b : Nat) (db : DB) (data : List Row)
    (c : String) (hb : 0 < b) :
    uploadToFirestoreVia upload b (.ok db) data c =
      (.ok ((List.range (ceilDiv data.length b)).filterMap (batchRecord upload b db data c)),
        (List.range (ceilDiv data.length b)).flatMap (batchTrace upload b db data c)) := by
  have h := uploadLoop_eq upload b db data c hb (ceilDiv data.length b) 0 data.length []
    (ceilDiv_le _ _ hb) (by omega)
  simp only [Nat.zero_mul] at h
  simp [uploadToFirestoreVia, h, List.range_eq_range']

/-- The slices from sub-batch `j + 1` on make up the rows from index `j * b` on. -/
theorem flatten_sliceOf (b : Nat) (data : List Row) (hb : 0 < b) :
    ∀ (n j : Nat), j + n = ceilDiv data.length b →
      ((List.range' j n).map (sliceOf b data)).flatten = data.drop (j * b) := by
  intro n
  induction n with
  | zero =>
    intro j hj
    have h1 : ¬ (j * b < data.length) := by
      rw [← lt_ceilDiv data.length b j hb]
      omega
    simp only [List.range'_zero, List.map_nil, List.flatten_nil]
    exact (List.drop_eq_nil_of_le (by omega)).symm
  | succ n ih =>
    intro j hj
    rw [List.range'_succ, List.map_cons, List.flatten_cons, ih (j + 1) (by omega)]
    have h3 : (j + 1) * b = j * b + b := Nat.succ_mul j b
    rw [h3, ← List.drop_drop]
    exact List.take_append_drop b (data.drop (j * b))

theorem flatten_batchDocs (b : Nat) (data : List Row) (hb : 0 < b) :
    ((List.range (ceilDiv data.length b)).map (batchDocs b data)).flatten =
      data.map processData := by
  have h := flatten_sliceOf b data hb (ceilDiv data.length b) 0 (by omega)
  simp only [Nat.zero_mul, List.drop_zero, ← List.range_eq_range'] at h
  have h2 : (List.range (ceilDiv data.length b)).map (batchDocs b data) =
      ((List.range (ceilDiv data.length b)).map (sliceOf b data)).map (List.map processData) := by
    simp [batchDocs]
  rw [h2, ← List.map_flatten, h]

theorem batchDocs_size (b : Nat) (data : List Row) (hb : 0 < b) (j : Nat)
    (hj : j < ceilDiv data.length b) :
    1 ≤ (batchDocs b data j).length ∧ (batchDocs b data j).length ≤ b ∧
      j * b + (batchDocs b data j).length = min ((j + 1) * b) data.length := by
  have h1 : j * b < data.length := (lt_ceilDiv data.length b j hb).mp hj
  have h3 : (j + 1) * b = j * b + b := Nat.succ_mul j b
  rw [length_batchDocs, h3]
  omega

/-! ## The retry helper inside `uploadToFirestore` -/

theorem failsAll_iff (db : DB) (j r : Nat) :
    failsAll db j r = true ↔ ∀ i, i < r → db j i = .error (errorOf db j i) := by
  unfold failsAll
  rw [List.all_eq_true]
  constructor
  · intro h i hi
    have := h i (List.mem_range.mpr hi)
    unfold errorOf
    cases hd : db j i with
    | error e => rfl
    | ok v => simp [hd] at this
  · intro h i hi
    rw [h i (List.mem_range.mp hi)]

/-- With a limit of at least one, the helper throws exactly when all attempts fail. -/
theorem uploadBatch_of_failsAll (db : DB) (c : String) (docs : List Doc) (j r : Nat)
    (hr : 1 ≤ r) (h : failsAll db j r = true) :
    uploadBatch db c docs j (r : Int) =
      (.error (errorOf db j (r - 1)),
        failedAttempts j docs (r - 1) ++ [Event.commit j targetCollection docs false]) :=
  uploadBatch_exhausted db c docs j r (errorOf db j) hr ((failsAll_iff db j r).mp h)

/-- With a limit of at least one, the helper returns `true` when some attempt within
the limit succeeds, after the attempts that precede the first such attempt. -/
theorem uploadBatch_of_not_failsAll (db : DB) (c : String) (docs : List Doc) (j r : Nat)
    (h : failsAll db j r = false) :
    ∃ k, 1 ≤ k ∧ k ≤ r ∧ failsAll db j (k - 1) = true ∧ db j (k - 1) = .ok () ∧
      uploadBatch db c docs j (r : Int) =
        (.ok (some true),
          failedAttempts j docs (k - 1) ++ [Event.commit j targetCollection docs true]) := by
  have hex : ∃ i, i < r ∧ db j i = .ok () := by
    by_contra hne
    have hall : failsAll db j r = true := by
      rw [failsAll_iff]
      intro i hi
      unfold errorOf
      cases hd : db j i with
      | error e => rfl
      | ok v => exact absurd ⟨i, hi, hd⟩ hne
    rw [hall] at h
    exact Bool.noConfusion h
  classical
  have hmin : ∀ i, i < Nat.find hex → ¬ (i < r ∧ db j i = .ok ()) :=
    fun i hi => Nat.find_min hex hi
  obtain ⟨hlt, hok⟩ := Nat.find_spec hex
  generalize Nat.find hex = m at hmin hlt hok
  have hpre : ∀ i, i < m → db j i = .error (errorOf db j i) := by
    intro i hi
    unfold errorOf
    cases hd : db j i with
    | error e => rfl
    | ok v => exact absurd ⟨by omega, hd⟩ (hmin i hi)
  refine ⟨m + 1, by omega, by omega, ?_, hok, ?_⟩
  · rw [Nat.add_sub_cancel, failsAll_iff]
    exact hpre
  · exact uploadBatch_succeeded db c docs j r (m + 1) (errorOf db j) (by omega) (by omega)
      hpre hok

theorem batchRecord_uploadBatchWith (b : Nat) (db : DB) (data : List Row) (c : String)
    (r : Nat) (hr : 1 ≤ r) (j : Nat) :
    batchRecord (uploadBatchWith (r : Int)) b db data c j =
      if failsAll db (j + 1) r = true then some (failureOf b data.length j) else none := by
  unfold batchRecord uploadBatchWith
  cases h : failsAll db (j + 1) r with
  | true => simp [uploadBatch_of_failsAll db c _ (j + 1) r hr h]
  | false =>
    obtain ⟨k, _, _, _, _, hk⟩ :=
      uploadBatch_of_not_failsAll db c (batchDocs b data j) (j + 1) r h
    simp [hk]

theorem batchTrace_uploadBatchWith (b : Nat) (db : DB) (data : List Row) (c : String)
    (r : Nat) (hr : 1 ≤ r) (j : Nat) :
    batchTrace (uploadBatchWith (r : Int)) b db data c j =
      (uploadBatch db c (batchDocs b data j) (j + 1) (r : Int)).2 ++
        if failsAll db (j + 1) r = true then [] else [Event.delay 500] := by
  unfold batchTrace uploadBatchWith
  cases h : failsAll db (j + 1) r with
  | true => simp [uploadBatch_of_failsAll db c _ (j + 1) r hr h]
  | false =>
    obtain ⟨k, _, _, _, _, hk⟩ :=
      uploadBatch_of_not_failsAll db c (batchDocs b data j) (j + 1) r h
    simp [hk]

/-- In a list of records numbered by position, the records of one number. -/
theorem filter_batchNumber (f : Nat → Option Failure)
    (hf : ∀ i r, f i = some r → r.batchNumber = i + 1) (j : Nat) (r : Failure)
    (hr : f j = some r) :
    ∀ (l : List Nat), l.Nodup → j ∈ l →
      (l.filterMap f).filter (fun x => decide (x.batchNumber = j + 1)) = [r] := by
  have hnone : ∀ (l : List Nat), j ∉ l →
      (l.filterMap f).filter (fun x => decide (x.batchNumber = j + 1)) = [] := by
    intro l hl
    rw [List.filter_eq_nil_iff]
    intro x hx
    obtain ⟨i, hi, hix⟩ := List.mem_filterMap.mp hx
    have := hf i x hix
    have hne : i ≠ j := fun h => hl (h ▸ hi)
    simp only [decide_eq_true_eq]
    omega
  intro l
  induction l with
  | nil => intro _ h; simp at h
  | cons a l ih =>
    intro hnd hmem
    rw [List.nodup_cons] at hnd
    by_cases haj : a = j
    · subst haj
      rw [List.filterMap_cons_some hr, List.filter_cons_of_pos, hnone l hnd.1]
      simp [hf a r hr]
    · have hjl : j ∈ l := by
        rcases List.mem_cons.mp hmem with h | h
        · exact absurd h.symm haj
        · exact h
      cases hfa : f a with
      | none => rw [List.filterMap_cons_none hfa]; exact ih hnd.2 hjl
      | some x =>
        rw [List.filterMap_cons_some hfa, List.filter_cons_of_neg]
        · exact ih hnd.2 hjl
        · have := hf a x hfa
          simp only [decide_eq_true_eq]
          omega

/-- Counting an event over the sub-batches: when every sub-batch either leaves a record
or leaves the event once, the two counts add up to the number of sub-batches. -/
theorem count_flatMap_add_length (e : Event) (f : Nat → Option Failure)
    (g : Nat → List Event)
    (h : ∀ i, (g i).count e + (if (f i).isSome then 1 else 0) = 1) :
    ∀ (l : List Nat), (l.flatMap g).count e + (l.filterMap f).length = l.length := by
  intro l
  induction l with
  | nil => rfl
  | cons a l ih =>
    have ha := h a
    cases hfa : f a with
    | none =>
      rw [hfa] at ha
      simp only [Option.isSome_none, Bool.false_eq_true, if_false, Nat.add_zero] at ha
      rw [List.flatMap_cons, List.count_append, List.filterMap_cons_none hfa, ha,
        List.length_cons]
      omega
    | some x =>
      rw [hfa] at ha
      simp only [Option.isSome_some, if_true] at ha
      rw [List.flatMap_cons, List.count_append, List.filterMap_cons_some hfa,
        List.length_cons, List.length_cons]
      omega

/-! ## Lemmas on `processData` -/

theorem keyBefore_congr (a a' b b' : String × Value) (ha : a.1 = a'.1) (hb : b.1 = b'.1) :
    keyBefore a b ↔ keyBefore a' b' := by
  unfold keyBefore
  rw [ha, hb]

/-- Assigning a key that is new and is enumerated after all present keys appends it. -/
theorem objSet_last (o : Obj) (k : String) (v w : Value) (hk0 : k ≠ "__proto__")
    (hnew : ∀ x ∈ o, x.1 ≠ k) (hafter : ∀ x ∈ o, keyBefore x (k, w)) :
    objSet o k v = o ++ [(k, v)] := by
  unfold objSet
  have hany : o.any (fun e => e.1 == k) = false := by
    rw [List.any_eq_false]
    intro x hx
    simpa using hnew x hx
  rw [hany]
  simp only [Bool.false_eq_true, if_false, hk0]
  cases hk : arrayIndex k with
  | none => rfl
  | some n =>
    have hall : ∀ x ∈ o, (match arrayIndex x.1 with
        | some m => decide (m < n)
        | none => false) = true := by
      intro x hx
      have h := hafter x hx
      unfold keyBefore at h
      simp only [hk] at h
      cases hx1 : arrayIndex x.1 with
      | none => simp [hx1] at h
      | some m => simpa [hx1] using h
    simp only
    rw [List.takeWhile_eq_self_iff.mpr hall, List.dropWhile_eq_nil_iff.mpr hall]

/-- On a row, `processData` converts the values entry by entry. -/
theorem processData_eq_map (row : Row) (h : IsRow row) :
    processData row = row.map (fun e => (e.1, processValue e.2)) := by
  unfold processData
  induction row using List.reverseRecOn with
  | nil => rfl
  | append_singleton l a ih =>
    obtain ⟨⟨hpw, hnd⟩, hproto⟩ := h
    rw [List.pairwise_append] at hpw
    rw [List.map_append, List.nodup_append] at hnd
    rw [List.foldl_append,
      ih ⟨⟨hpw.1, hnd.1⟩, fun e he => hproto e (List.mem_append_left _ he)⟩]
    simp only [List.foldl_cons, List.foldl_nil, List.map_append, List.map_cons, List.map_nil]
    apply objSet_last _ _ _ a.2 (hproto a (by simp))
    · intro x hx
      obtain ⟨y, hy, rfl⟩ := List.mem_map.mp hx
      intro heq
      have h1 : y.1 ∈ l.map Prod.fst := List.mem_map.mpr ⟨y, hy, rfl⟩
      have h2 : y.1 ∈ [a].map Prod.fst := by simpa using heq
      exact hnd.2.2 h1 h2
    · intro x hx
      obtain ⟨y, hy, rfl⟩ := List.mem_map.mp hx
      exact (keyBefore_congr _ y _ a rfl rfl).mpr (hpw.2.2 y hy a (by simp))

/-! ## Lemmas on `fetchMySQLDataInChunks` -/

theorem div_bounds (n p : Nat) (hp : 0 < p) :
    n / p * p ≤ n ∧ n < n / p * p + p ∧ n % p = n - n / p * p := by
  have h1 := Nat.div_add_mod n p
  have h2 := Nat.mod_lt n hp
  rw [Nat.mul_comm] at h1
  omega

theorem ceilDiv_eq (n p : Nat) (hp : 0 < p) :
    ceilDiv n p = n / p + (if n % p = 0 then 0 else 1) := by
  obtain ⟨h1, h2, h3⟩ := div_bounds n p hp
  unfold ceilDiv
  split
  · rw [Nat.add_zero]
    apply Nat.div_eq_of_lt_le
    · omega
    · rw [Nat.succ_mul]; omega
  · apply Nat.div_eq_of_lt_le
    · rw [Nat.succ_mul]; omega
    · rw [Nat.succ_mul, Nat.succ_mul]; omega

theorem mul_le_of_lt_div (n p k : Nat) (hp : 0 < p) (hk : k < n / p) : k * p + p ≤ n := by
  have h1 : (k + 1) * p ≤ n / p * p := Nat.mul_le_mul_right p hk
  have h2 := (div_bounds n p hp).1
  rw [Nat.succ_mul] at h1
  omega

/-- Pages of a stable table: from the `k`-th query on, the generator yields the remaining
non-empty pages and stops after the first page that is not full. -/
theorem fetchLoop_collect (rows : List Row) (table : String) (p : Nat) (hp : 0 < p) :
    ∀ (n k fuel : Nat) (acc : List (List Row)), k + n = rows.length / p → n + 1 ≤ fuel →
      fetchLoop (stableConnection rows) table p collectChunks fuel k (k * p) acc =
        (some (.ok (acc ++ (List.range' k (ceilDiv rows.length p - k)).map (sliceOf p rows))),
          (List.range' k (n + 1)).map (fun i => Event.query table p (i * p))) := by
  intro n
  induction n with
  | zero =>
    intro k fuel acc hk hfuel
    obtain ⟨fuel, rfl⟩ : ∃ f, fuel = f + 1 := ⟨fuel - 1, by omega⟩
    obtain ⟨h1, h2, h3⟩ := div_bounds rows.length p hp
    have hc := ceilDiv_eq rows.length p hp
    have hk2 : k = rows.length / p := by omega
    subst hk2
    have hlen : (List.take p (List.drop (rows.length / p * p) rows)).length =
        rows.length - rows.length / p * p := by
      rw [List.length_take, List.length_drop]; omega
    rw [fetchLoop]
    simp only [stableConnection, hlen]
    by_cases h0 : rows.length % p = 0
    · have h4 : ¬ (rows.length - rows.length / p * p > 0) := by omega
      have h5 : ¬ (rows.length - rows.length / p * p = p) := by omega
      have h6 : ceilDiv rows.length p - rows.length / p = 0 := by rw [hc, if_pos h0]; omega
      simp [h4, h5, h6]
    · have h4 : rows.length - rows.length / p * p > 0 := by omega
      have h5 : ¬ (rows.length - rows.length / p * p = p) := by omega
      have h6 : ceilDiv rows.length p - rows.length / p = 1 := by rw [hc, if_neg h0]; omega
      simp [h4, h5, h6, collectChunks, sliceOf]
  | succ n ih =>
    intro k fuel acc hk hfuel
    obtain ⟨fuel, rfl⟩ : ∃ f, fuel = f + 1 := ⟨fuel - 1, by omega⟩
    have hlt : k < rows.length / p := by omega
    have h1 := mul_le_of_lt_div rows.length p k hp hlt
    have hc := ceilDiv_eq rows.length p hp
    have hlen : (List.take p (List.drop (k * p) rows)).length = p := by
      rw [List.length_take, List.length_drop]; omega
    have h3 : k * p + p = (k + 1) * p := (Nat.succ_mul k p).symm
    have h6 : ceilDiv rows.length p - k = (ceilDiv rows.length p - (k + 1)) + 1 := by
      rw [hc]; split <;> omega
    rw [fetchLoop]
    simp only [stableConnection, hlen, collectChunks, h3]
    rw [ih (k + 1) fuel _ (by omega) (by omega), h6]
    simp [hp, List.range'_succ, sliceOf]

/-- The per-table loop on a stable table, when every call of `admin.firestore()` gives a
handle: from page `k` on, every non-empty page is uploaded by one call of
`uploadToFirestore`, and the loop stops after the first page that is not full. -/
theorem fetchLoop_migrate (upload : Uploader) (b : Nat) (dbs : Nat → DB) (rows : List Row)
    (table : String) (p : Nat) (hp : 0 < p) :
    ∀ (n k fuel : Nat) (s : TableState), s.calls = k → k + n = rows.length / p →
      n + 1 ≤ fuel →
      fetchLoop (stableConnection rows) table p
          (migrateChunkVia upload b (fun i => .ok (dbs i)) table) fuel k (k * p) s =
        (some (.ok ⟨ceilDiv rows.length p,
            s.returned ++ (List.range' k (ceilDiv rows.length p - k)).map
              (chunkFailures upload b dbs rows table p),
            s.failures ++ ((List.range' k (ceilDiv rows.length p - k)).map
              (chunkFailures upload b dbs rows table p)).flatten⟩),
          (List.range' k (n + 1)).flatMap (fun i =>
            Event.query table p (i * p) :: chunkTrace upload b dbs rows table p i)) := by
  intro n
  induction n with
  | zero =>
    intro k fuel s hs hk hfuel
    obtain ⟨fuel, rfl⟩ : ∃ f, fuel = f + 1 := ⟨fuel - 1, by omega⟩
    obtain ⟨h1, h2, h3⟩ := div_bounds rows.length p hp
    have hc := ceilDiv_eq rows.length p hp
    have hk2 : k = rows.length / p := by omega
    subst hk2
    have hlen : (List.take p (List.drop (rows.length / p * p) rows)).length =
        rows.length - rows.length / p * p := by
      rw [List.length_take, List.length_drop]; omega
    rw [fetchLoop]
    simp only [stableConnection, hlen]
    by_cases h0 : rows.length % p = 0
    · have h4 : ¬ (rows.length - rows.length / p * p > 0) := by omega
      have h5 : ¬ (rows.length - rows.length / p * p = p) := by omega
      have h6 : ceilDiv rows.length p - rows.length / p = 0 := by rw [hc, if_pos h0]; omega
      have h7 : ceilDiv rows.length p = rows.length / p := by rw [hc, if_pos h0]; omega
      have h8 : chunkTrace upload b dbs rows table p (rows.length / p) = [] := by
        have hl : (sliceOf p rows (rows.length / p)).length = 0 := by
          rw [length_sliceOf]; omega
        unfold chunkTrace
        rw [hl]
        rfl
      cases s
      simp only at hs
      simp [h4, h5, h6, h7, h8, hs]
    · have h4 : rows.length - rows.length / p * p > 0 := by omega
      have h5 : ¬ (rows.length - rows.length / p * p = p) := by omega
      have h6 : ceilDiv rows.length p - rows.length / p = 1 := by rw [hc, if_neg h0]; omega
      have h7 : ceilDiv rows.length p = rows.length / p + 1 := by rw [hc, if_neg h0]
      simp [h4, h5, h6, h7, migrateChunkVia, uploadToFirestoreVia, hs, chunkFailures,
        chunkTrace, sliceOf]
  | succ n ih =>
    intro k fuel s hs hk hfuel
    obtain ⟨fuel, rfl⟩ : ∃ f, fuel = f + 1 := ⟨fuel - 1, by omega⟩
    have hlt : k < rows.length / p := by omega
    have h1 := mul_le_of_lt_div rows.length p k hp hlt
    have hc := ceilDiv_eq rows.length p hp
    have hlen : (List.take p (List.drop (k * p) rows)).length = p := by
      rw [List.length_take, List.length_drop]; omega
    have h3 : k * p + p = (k + 1) * p := (Nat.succ_mul k p).symm
    have h6 : ceilDiv rows.length p - k = (ceilDiv rows.length p - (k + 1)) + 1 := by
      rw [hc]; split <;> omega
    rw [fetchLoop]
    simp only [stableConnection, hlen, migrateChunkVia, uploadToFirestoreVia, h3]
    simp only [hp, gt_iff_lt, if_true]
    have hmin : min p (rows.length - k * p) = p := by omega
    rw [ih (k + 1) fuel _ (by simp [hs]) (by omega) (by omega), h6]
    simp [List.range'_succ, chunkFailures, chunkTrace, sliceOf, hs, hlen, hmin]

/-- The pages of all queries on a stable table make up the table. -/
theorem flatMap_sliceOf (rows : List Row) (p : Nat) (hp : 0 < p) :
    (List.range (rows.length / p + 1)).flatMap (sliceOf p rows) = rows := by
  have h := flatten_sliceOf p rows hp (ceilDiv rows.length p) 0 (by omega)
  simp only [Nat.zero_mul, List.drop_zero, ← List.range_eq_range'] at h
  have hc := ceilDiv_eq rows.length p hp
  obtain ⟨h1, h2, h3⟩ := div_bounds rows.length p hp
  rw [List.flatMap_def]
  by_cases h0 : rows.length % p = 0
  · rw [if_pos h0, Nat.add_zero] at hc
    rw [hc] at h
    have hlast : sliceOf p rows (rows.length / p) = [] := by
      apply List.eq_nil_of_length_eq_zero
      rw [length_sliceOf]; omega
    rw [List.range_succ, List.map_append, List.flatten_append, h]
    simp [hlast]
  · rw [if_neg h0] at hc
    rw [hc] at h
    exact h

/-- The loop of `uploadToFirestore` as `uploadToFirestore` starts it. -/
theorem uploadLoop_full (upload : Uploader) (b : Nat) (db : DB) (data : List Row) (c : String)
    (hb : 0 < b) :
    uploadLoop upload b db data c data.length 0 [] =
      ((List.range (ceilDiv data.length b)).filterMap (batchRecord upload b db data c),
        (List.range (ceilDiv data.length b)).flatMap (batchTrace upload b db data c)) := by
  have h := uploadLoop_eq upload b db data c hb (ceilDiv data.length b) 0 data.length []
    (ceilDiv_le _ _ hb) (by omega)
  simp only [Nat.zero_mul] at h
  simp [h, List.range_eq_range']

theorem committedDocs_flatMap {α : Type} (l : List α) (g : α → List Event) :
    committedDocs (l.flatMap g) = l.flatMap (fun x => committedDocs (g x)) := by
  unfold committedDocs
  rw [List.flatMap_assoc]

theorem length_idRows (n : Nat) : (idRows n).length = n := by
  simp [idRows]

/-- The list returned for a page of a stable table by `uploadToFirestore` with the retry
helper: the records of the batches whose attempts all fail, with indexes into the page. -/
theorem chunkFailures_uploadBatchWith (b : Nat) (dbs : Nat → DB) (rows : List Row)
    (table : String) (p k r : Nat) (hb : 0 < b) (hr : 1 ≤ r) :
    chunkFailures (uploadBatchWith (r : Int)) b dbs rows table p k =
      (List.range (ceilDiv (min p (rows.length - k * p)) b)).filterMap (fun j =>
        if failsAll (dbs k) (j + 1) r = true
        then some (failureOf b (min p (rows.length - k * p)) j) else none) := by
  unfold chunkFailures
  rw [uploadLoop_full _ b (dbs k) _ table hb]
  have hbr : batchRecord (uploadBatchWith (r : Int)) b (dbs k) (sliceOf p rows k) table =
      fun j => if failsAll (dbs k) (j + 1) r = true
        then some (failureOf b (min p (rows.length - k * p)) j) else none := by
    funext j
    rw [batchRecord_uploadBatchWith b (dbs k) _ table r hr j, length_sliceOf]
  rw [hbr, length_sliceOf]

/-! ## Further lemmas on the traces -/

/-- No backoff of the retry loop lasts 500 ms. -/
theorem uploadBatchLoop_no_pause (db : DB) (docs : List Doc) (j : Nat) (retries : Int) :
    ∀ (fuel attempt : Nat),
      Event.delay 500 ∉ (uploadBatchLoop db docs j retries fuel attempt).2 := by
  intro fuel
  induction fuel with
  | zero => intro attempt; simp [uploadBatchLoop]
  | succ fuel ih =>
    intro attempt
    rw [uploadBatchLoop]
    split
    · split
      · simp
      · split
        · simp
        · have hpow : 0 < 2 ^ (attempt + 1) := Nat.pow_pos (by decide)
          have hne : ¬ (500 = 2 ^ (attempt + 1) * 1000) := by omega
          simp only [List.mem_cons, Event.delay.injEq, hne, false_or, reduceCtorEq]
          exact ih (attempt + 1)
    · simp

theorem count_pause_uploadBatch (db : DB) (c : String) (docs : List Doc) (j : Nat)
    (retries : Int) : (uploadBatch db c docs j retries).2.count (Event.delay 500) = 0 :=
  List.count_eq_zero.mpr (uploadBatchLoop_no_pause db docs j retries _ _)

/-- With a limit of at least one, the trace of the helper holds a commit attempt. -/
theorem commit_mem_uploadBatch (db : DB) (c : String) (docs : List Doc) (j r : Nat)
    (hr : 1 ≤ r) :
    Event.commit j targetCollection docs (!failsAll db j r) ∈
      (uploadBatch db c docs j (r : Int)).2 := by
  cases h : failsAll db j r with
  | true => simp [uploadBatch_of_failsAll db c docs j r hr h]
  | false =>
    obtain ⟨k, _, _, _, _, hk⟩ := uploadBatch_of_not_failsAll db c docs j r h
    simp [hk]

theorem mem_commitAttempts (t : List Event) (j : Nat) (c : String) (docs : List Doc)
    (ok : Bool) (h : Event.commit j c docs ok ∈ t) : (j, ok) ∈ commitAttempts t :=
  List.mem_filterMap.mpr ⟨_, h, rfl⟩

/-! ## The verified properties -/

/-- C1. With a handle and a sub-batch size `b ≥ 1`, `uploadToFirestore` on a chunk of `L`
rows calls its helper exactly `ceil(L / b)` times, for the batch numbers `1, 2, ...` in
order; the documents of batch `j + 1` are `processData` mapped over the rows
`j * b .. min ((j + 1) * b) L` of the chunk. Every batch has between 1 and `b` documents,
the sizes add up to `L`, and the batches in order make up `processData` mapped over the
chunk. -/
theorem uploadToFirestore_partition (upload : Uploader) (b : Nat) (db : DB) (data : List Row)
    (c : String) (hb : 1 ≤ b) :
    (uploadToFirestoreVia upload b (.ok db) data c).2 =
        (List.range (ceilDiv data.length b)).flatMap (fun j =>
          (upload db c (((data.drop (j * b)).take b).map processData) (j + 1)).2 ++
            match (upload db c (((data.drop (j * b)).take b).map processData) (j + 1)).1 with
            | .ok _ => [Event.delay 500]
            | .error _ => []) ∧
      (∀ j, j < ceilDiv data.length b →
        1 ≤ (batchDocs b data j).length ∧ (batchDocs b data j).length ≤ b ∧
          j * b + (batchDocs b data j).length = min ((j + 1) * b) data.length) ∧
      ((List.range (ceilDiv data.length b)).map (fun j => (batchDocs b data j).length)).sum =
        data.length ∧
      ((List.range (ceilDiv data.length b)).map (batchDocs b data)).flatten =
        data.map processData := by
  refine ⟨?_, fun j hj => batchDocs_size b data hb j hj, ?_, flatten_batchDocs b data hb⟩
  · rw [uploadToFirestoreVia_eq upload b db data c hb]
    rfl
  · have h := congrArg List.length (flatten_batchDocs b data hb)
    rw [List.length_flatten, List.map_map, List.length_map] at h
    exact h

/-- Instance of C1: three rows under the sub-batch size of the script. -/
theorem uploadToFirestore_partition_witness :
    1 ≤ defaultBatchSize ∧
      ((List.range (ceilDiv 3 defaultBatchSize)).map
        (batchDocs defaultBatchSize
          [[("id", .number 1)], [("id", .number 2)], [("id", .number 3)]])).flatten =
        [[("id", .number 1)], [("id", .number 2)], [("id", .number 3)]].map processData :=
  ⟨by decide,
    (uploadToFirestore_partition (uploadBatchWith defaultRetries) defaultBatchSize
      (fun _ _ => .ok ()) [[("id", .number 1)], [("id", .number 2)], [("id", .number 3)]]
      "en" (by decide)).2.2.2⟩

/-- C2. With a retry limit `r ≥ 1`, a batch whose `r` attempts all fail gets exactly `r`
commit attempts, with `r - 1` backoffs of `2 ^ 1 * 1000, ..., 2 ^ (r - 1) * 1000` ms
between them and none after the last, and `uploadBatch` throws the last error. When that
batch is sub-batch `j + 1` of a chunk, `uploadToFirestore` returns a list that holds the
record `(j + 1, j * b, min ((j + 1) * b) L)` once and no other record of that number;
the end index is exclusive, so that the two indexes differ by the size of the batch. -/
theorem uploadBatch_exhausts_retries (db : DB) (c : String) (docs : List Doc) (data : List Row)
    (r b j : Nat) (err : Nat → Err) (hr : 1 ≤ r) (hb : 1 ≤ b)
    (hj : j < ceilDiv data.length b) (hdb : ∀ i, i < r → db (j + 1) i = .error (err i)) :
    uploadBatch db c docs (j + 1) (r : Int) =
        (.error (err (r - 1)),
          failedAttempts (j + 1) docs (r - 1) ++
            [Event.commit (j + 1) targetCollection docs false]) ∧
      commitAttempts (uploadBatch db c docs (j + 1) (r : Int)).2 =
        List.replicate r (j + 1, false) ∧
      delays (uploadBatch db c docs (j + 1) (r : Int)).2 =
        (List.range (r - 1)).map (fun i => 2 ^ (i + 1) * 1000) ∧
      ∃ fs, (uploadToFirestoreVia (uploadBatchWith (r : Int)) b (.ok db) data c).1 = .ok fs ∧
        fs.count ⟨j + 1, j * b, min ((j + 1) * b) data.length⟩ = 1 ∧
        fs.filter (fun x => decide (x.batchNumber = j + 1)) =
          [⟨j + 1, j * b, min ((j + 1) * b) data.length⟩] ∧
        min ((j + 1) * b) data.length - j * b = (batchDocs b data j).length := by
  have hup := uploadBatch_exhausted db c docs (j + 1) r err hr hdb
  have hr1 : r - 1 + 1 = r := by omega
  refine ⟨hup, ?_, ?_, ?_⟩
  · rw [hup, commitAttempts_append, commitAttempts_failedAttempts]
    show List.replicate (r - 1) (j + 1, false) ++ [(j + 1, false)] = _
    rw [replicate_snoc, hr1]
  · rw [hup, delays_append, delays_failedAttempts]
    show _ ++ [] = _
    rw [List.append_nil]
  · have hall : failsAll db (j + 1) r = true := by
      unfold failsAll
      rw [List.all_eq_true]
      intro i hi
      rw [hdb i (List.mem_range.mp hi)]
    have hrec : batchRecord (uploadBatchWith (r : Int)) b db data c j =
        some ⟨j + 1, j * b, min ((j + 1) * b) data.length⟩ := by
      rw [batchRecord_uploadBatchWith b db data c r hr j, if_pos hall]
      rfl
    have hnum : ∀ i x, batchRecord (uploadBatchWith (r : Int)) b db data c i = some x →
        x.batchNumber = i + 1 := by
      intro i x hx
      rw [batchRecord_uploadBatchWith b db data c r hr i] at hx
      split at hx
      · cases hx; rfl
      · cases hx
    have hfil := filter_batchNumber _ hnum j _ hrec (List.range (ceilDiv data.length b))
      (List.nodup_range _) (List.mem_range.mpr hj)
    refine ⟨_, by rw [uploadToFirestoreVia_eq _ b db data c hb], ?_, hfil, ?_⟩
    · rw [← List.count_filter (p := fun x => decide (x.batchNumber = j + 1))
        (l := (List.range (ceilDiv data.length b)).filterMap _) (by simp), hfil]
      simp
    · have := (batchDocs_size b data hb j hj).2.2
      omega

/-- Instance of C2: the only batch of a chunk of two rows fails three times. -/
theorem uploadBatch_exhausts_retries_witness :
    delays (uploadBatch (fun _ _ => .error (.commit 0)) "en" [[("id", .number 1)]] 1 3).2 =
      (List.range (3 - 1)).map (fun i => 2 ^ (i + 1) * 1000) :=
  (uploadBatch_exhausts_retries (fun _ _ => .error (.commit 0)) "en" [[("id", .number 1)]]
    [[("id", .number 1)], [("id", .number 2)]] 3 250 0 (fun _ => .commit 0)
    (by decide) (by decide) (by decide) (fun _ _ => rfl)).2.2.1

/-- C3. With a handle, a retry limit `r ≥ 1` and a sub-batch size `b ≥ 1`,
`uploadToFirestore` returns normally whatever the outcomes of the commit attempts are.
The returned list holds, in ascending order of the batch number, one record for every
batch whose `r` attempts all fail and nothing else, and every batch `1 .. ceil(L / b)`
gets a commit attempt, whether or not earlier batches failed. -/
theorem uploadToFirestore_isolates_failures (db : DB) (data : List Row) (c : String)
    (r b : Nat) (hr : 1 ≤ r) (hb : 1 ≤ b) :
    (uploadToFirestoreVia (uploadBatchWith (r : Int)) b (.ok db) data c).1 =
        .ok ((List.range (ceilDiv data.length b)).filterMap (fun j =>
          if failsAll db (j + 1) r = true
          then some ⟨j + 1, j * b, min ((j + 1) * b) data.length⟩ else none)) ∧
      (((List.range (ceilDiv data.length b)).filterMap (fun j =>
          if failsAll db (j + 1) r = true
          then some (Failure.mk (j + 1) (j * b) (min ((j + 1) * b) data.length))
          else none)).map Failure.batchNumber).Pairwise (fun x y => x < y) ∧
      ∀ j, j < ceilDiv data.length b →
        (j + 1, !failsAll db (j + 1) r) ∈ commitAttempts
          (uploadToFirestoreVia (uploadBatchWith (r : Int)) b (.ok db) data c).2 := by
  have hrec : batchRecord (uploadBatchWith (r : Int)) b db data c = fun j =>
      if failsAll db (j + 1) r = true
      then some ⟨j + 1, j * b, min ((j + 1) * b) data.length⟩ else none := by
    funext j
    rw [batchRecord_uploadBatchWith b db data c r hr j]
    rfl
  refine ⟨?_, ?_, ?_⟩
  · rw [uploadToFirestoreVia_eq _ b db data c hb, hrec]
  · rw [List.pairwise_map]
    refine List.Pairwise.filterMap _ ?_ (List.pairwise_lt_range _)
    intro i i' hii x hx y hy
    simp only [Option.mem_def] at hx hy
    split at hx
    · split at hy
      · cases hx; cases hy; exact Nat.succ_lt_succ hii
      · cases hy
    · cases hx
  · intro j hj
    rw [uploadToFirestoreVia_eq _ b db data c hb]
    apply mem_commitAttempts _ _ targetCollection (batchDocs b data j)
    rw [List.mem_flatMap]
    refine ⟨j, List.mem_range.mpr hj, ?_⟩
    rw [batchTrace_uploadBatchWith b db data c r hr j]
    exact List.mem_append_left _ (commit_mem_uploadBatch db c _ (j + 1) r hr)

/-- Instance of C3: a chunk of five batches of the script's size whose third batch fails
on all three attempts. One record comes back, and the batches 1, 2, 4 and 5 are committed. -/
theorem uploadToFirestore_isolates_failures_witness :
    (uploadToFirestore
        (.ok (fun j _ => if j = 3 then .error (.commit 0) else .ok ()))
        (List.replicate 1250 [("id", .number 1)]) "en").1 = .ok [⟨3, 500, 750⟩] ∧
      ∀ j, j < 5 →
        (j + 1, !failsAll (fun j _ => if j = 3 then .error (.commit 0) else .ok ()) (j + 1) 3) ∈
          commitAttempts (uploadToFirestore
            (.ok (fun j _ => if j = 3 then .error (.commit 0) else .ok ()))
            (List.replicate 1250 [("id", .number 1)]) "en").2 := by
  have h := uploadToFirestore_isolates_failures
    (fun j _ => if j = 3 then .error (.commit 0) else .ok ())
    (List.replicate 1250 [("id", .number 1)]) "en" 3 250 (by decide) (by decide)
  have hlen : (List.replicate 1250 [("id", Value.number 1)]).length = 1250 :=
    List.length_replicate _ _
  have hc : ceilDiv 1250 250 = 5 := by decide
  rw [hlen, hc] at h
  exact ⟨h.1.trans (congrArg Except.ok (by decide)), h.2.2⟩

/-- C4. On a table of `N` rows that does not change and with a page size `p ≥ 1`, the
generator terminates (every bound of at least `N / p + 1` iterations is enough) after
`N / p + 1 = ceil(N / p) + (1 if N % p = 0 else 0)` queries, query `k` asking for `p` rows
from offset `k * p`. It yields `ceil(N / p)` pages, none empty, all but possibly the last
of `p` rows, and the pages in order make up the table. -/
theorem fetch_stable_table (rows : List Row) (table : String) (p fuel : Nat) (hp : 1 ≤ p)
    (hfuel : rows.length / p + 1 ≤ fuel) :
    fetchMySQLDataInChunks (stableConnection rows) table p collectChunks fuel [] =
        (some (.ok ((List.range (ceilDiv rows.length p)).map (sliceOf p rows))),
          (List.range (rows.length / p + 1)).map (fun k => Event.query table p (k * p))) ∧
      rows.length / p + 1 = ceilDiv rows.length p + (if rows.length % p = 0 then 1 else 0) ∧
      (∀ k, k < ceilDiv rows.length p →
        1 ≤ (sliceOf p rows k).length ∧ (sliceOf p rows k).length ≤ p ∧
          (k + 1 < ceilDiv rows.length p → (sliceOf p rows k).length = p)) ∧
      ((List.range (ceilDiv rows.length p)).map (sliceOf p rows)).flatten = rows := by
  refine ⟨?_, ?_, ?_, ?_⟩
  · have h := fetchLoop_collect rows table p hp (rows.length / p) 0 fuel [] (by omega) hfuel
    simp only [Nat.zero_mul, Nat.sub_zero, List.nil_append, ← List.range_eq_range'] at h
    exact h
  · rw [ceilDiv_eq rows.length p hp]
    split <;> omega
  · intro k hk
    have h1 : k * p < rows.length := (lt_ceilDiv rows.length p k hp).mp hk
    rw [length_sliceOf]
    refine ⟨by omega, by omega, ?_⟩
    intro hk2
    have h2 : (k + 1) * p < rows.length := (lt_ceilDiv rows.length p (k + 1) hp).mp hk2
    rw [Nat.succ_mul] at h2
    omega
  · have h := flatten_sliceOf p rows hp (ceilDiv rows.length p) 0 (by omega)
    simpa [← List.range_eq_range'] using h

/-- Instance of C4: twelve rows in pages of ten take two queries and give two pages. -/
theorem fetch_stable_table_witness :
    1 ≤ 10 ∧ 12 / 10 + 1 ≤ 2 ∧
      fetchMySQLDataInChunks (stableConnection (idRows 12)) "en" 10 collectChunks 2 [] =
        (some (.ok ((List.range (ceilDiv 12 10)).map (sliceOf 10 (idRows 12)))),
          (List.range (12 / 10 + 1)).map (fun k => Event.query "en" 10 (k * 10))) :=
  ⟨by decide, by decide, (fetch_stable_table (idRows 12) "en" 10 2 (by decide) (by decide)).1⟩

/-- C5. On a row, `processData` returns the same field names in the same order, and the
value of every field depends on the value of that field alone: a `Date` becomes the
timestamp of its instant, a `bigint` its decimal numeral, a buffer its base64 text, and a
value of any other kind is kept. `processData` is a total function. -/
theorem processData_converts (row : Row) (h : IsRow row) :
    processData row = row.map (fun e => (e.1, processValue e.2)) ∧
      (processData row).map Prod.fst = row.map Prod.fst ∧
      (∀ millis, processValue (.date millis) = .timestamp (Timestamp.fromDate millis)) ∧
      (∀ n, processValue (.bigint n) = .string (toString n)) ∧
      (∀ bytes, processValue (.buffer bytes) = .string (base64 bytes)) ∧
      (∀ v, (∀ millis, v ≠ .date millis) → (∀ n, v ≠ .bigint n) →
        (∀ bytes, v ≠ .buffer bytes) → processValue v = v) := by
  have hmap := processData_eq_map row h
  refine ⟨hmap, ?_, fun _ => rfl, fun _ => rfl, fun _ => rfl, ?_⟩
  · rw [hmap, List.map_map]
    rfl
  · intro v h1 h2 h3
    cases v with
    | date millis => exact absurd rfl (h1 millis)
    | bigint n => exact absurd rfl (h2 n)
    | buffer bytes => exact absurd rfl (h3 bytes)
    | _ => rfl

/-- Instance of C5: a row with an array-index key and a field of every converted kind. -/
theorem processData_converts_witness :
    IsRow [("7", .null), ("id", .bigint (-5)), ("at", .date 1000),
        ("raw", .buffer [77, 97, 110]), ("name", .string "x")] ∧
      processData [("7", .null), ("id", .bigint (-5)), ("at", .date 1000),
          ("raw", .buffer [77, 97, 110]), ("name", .string "x")] =
        [("7", .null), ("id", .string "-5"), ("at", .timestamp ⟨1000⟩),
          ("raw", .string "TWFu"), ("name", .string "x")] :=
  ⟨by decide,
    (processData_converts [("7", .null), ("id", .bigint (-5)), ("at", .date 1000),
      ("raw", .buffer [77, 97, 110]), ("name", .string "x")] (by decide)).1.trans (by decide)⟩

/-- C6. On a table of `N` rows that does not change, with a page size `p ≥ 1`, a sub-batch
size `b ≥ 1` and a retry limit `r ≥ 1`, when every first commit attempt succeeds, the
per-table loop ends normally after `ceil(N / p)` calls of `uploadToFirestore`, each of
which returns the empty list. Its trace is, page after page, the query and then one
successful commit and one pause per batch, the batches being numbered from 1 within
every page; the committed batches in order make up `processData` mapped over the table. -/
theorem migrateTable_all_succeed (dbs : Nat → DB) (rows : List Row) (table : String)
    (r p b fuel : Nat) (hr : 1 ≤ r) (hp : 1 ≤ p) (hb : 1 ≤ b)
    (hfuel : rows.length / p + 1 ≤ fuel) (hok : ∀ k j, dbs k j 0 = .ok ()) :
    migrateTableVia (uploadBatchWith (r : Int)) p b (fun k => .ok (dbs k))
        (stableConnection rows) table fuel =
        (some (.ok ⟨ceilDiv rows.length p, List.replicate (ceilDiv rows.length p) [], []⟩),
          (List.range (rows.length / p + 1)).flatMap (fun k =>
            Event.query table p (k * p) ::
              (List.range (ceilDiv (sliceOf p rows k).length b)).flatMap (fun j =>
                [Event.commit (j + 1) targetCollection (batchDocs b (sliceOf p rows k) j) true,
                  Event.delay 500]))) ∧
      committedDocs (migrateTableVia (uploadBatchWith (r : Int)) p b (fun k => .ok (dbs k))
        (stableConnection rows) table fuel).2 = rows.map processData := by
  have hup : ∀ k j docs, uploadBatch (dbs k) table docs (j + 1) (r : Int) =
      (.ok (some true), [Event.commit (j + 1) targetCollection docs true]) := by
    intro k j docs
    have h := uploadBatch_succeeded (dbs k) table docs (j + 1) r 1 (fun _ => .other 0)
      (by omega) hr (fun i hi => absurd hi (by omega)) (hok k (j + 1))
    simpa [failedAttempts] using h
  have hcf : chunkFailures (uploadBatchWith (r : Int)) b dbs rows table p = fun _ => [] := by
    funext k
    unfold chunkFailures
    rw [uploadLoop_full _ b (dbs k) _ table hb]
    have hbr : batchRecord (uploadBatchWith (r : Int)) b (dbs k) (sliceOf p rows k) table =
        fun _ => none := by
      funext j
      simp [batchRecord, uploadBatchWith, hup]
    rw [hbr]
    simp
  have hct : chunkTrace (uploadBatchWith (r : Int)) b dbs rows table p = fun k =>
      (List.range (ceilDiv (sliceOf p rows k).length b)).flatMap (fun j =>
        [Event.commit (j + 1) targetCollection (batchDocs b (sliceOf p rows k) j) true,
          Event.delay 500]) := by
    funext k
    unfold chunkTrace
    rw [uploadLoop_full _ b (dbs k) _ table hb]
    have hbt : batchTrace (uploadBatchWith (r : Int)) b (dbs k) (sliceOf p rows k) table =
        fun j => [Event.commit (j + 1) targetCollection (batchDocs b (sliceOf p rows k) j) true,
          Event.delay 500] := by
      funext j
      simp [batchTrace, uploadBatchWith, hup]
    rw [hbt]
  have hrun := fetchLoop_migrate (uploadBatchWith (r : Int)) b dbs rows table p hp
    (rows.length / p) 0 fuel ⟨0, [], []⟩ rfl (by omega) hfuel
  simp only [Nat.zero_mul, Nat.sub_zero, List.nil_append, ← List.range_eq_range', hcf, hct]
    at hrun
  have hconst : ∀ m : Nat, (List.range m).map (fun _ => ([] : List Failure)) =
      List.replicate m [] := by
    intro m
    induction m with
    | zero => rfl
    | succ m ih => rw [List.range_succ, List.map_append, ih, ← replicate_snoc]; rfl
  rw [hconst, List.flatten_replicate_nil] at hrun
  have hrun2 : migrateTableVia (uploadBatchWith (r : Int)) p b (fun k => .ok (dbs k))
      (stableConnection rows) table fuel = _ := hrun
  refine ⟨hrun2, ?_⟩
  rw [hrun2, committedDocs_flatMap]
  have hpage : ∀ k, committedDocs (Event.query table p (k * p) ::
        (List.range (ceilDiv (sliceOf p rows k).length b)).flatMap (fun j =>
          [Event.commit (j + 1) targetCollection (batchDocs b (sliceOf p rows k) j) true,
            Event.delay 500])) = (sliceOf p rows k).map processData := by
    intro k
    have hq : ∀ t, committedDocs (Event.query table p (k * p) :: t) = committedDocs t := by
      intro t; simp [committedDocs]
    rw [hq, committedDocs_flatMap, ← flatten_batchDocs b (sliceOf p rows k) hb,
      List.flatMap_def]
    congr 1
    apply List.map_congr_left
    intro j _
    simp [committedDocs]
  simp only [hpage]
  rw [← List.map_flatMap, flatMap_sliceOf rows p hp]

/-- Instance of C6: twelve rows, pages of ten, batches of five. The pages have ten and two
rows; the batches are 1 and 2 with five documents each and then 1 with two documents;
both calls return the empty list. -/
theorem migrateTable_all_succeed_witness :
    (migrateTableVia (uploadBatchWith 3) 10 5 (fun _ => .ok (fun _ _ => .ok ()))
        (stableConnection (idRows 12)) "en" 2).1 = some (.ok ⟨2, [[], []], []⟩) ∧
      committedSizes (migrateTableVia (uploadBatchWith 3) 10 5
        (fun _ => .ok (fun _ _ => .ok ())) (stableConnection (idRows 12)) "en" 2).2 =
        [(1, 5), (2, 5), (1, 2)] ∧
      queriesOf (migrateTableVia (uploadBatchWith 3) 10 5
        (fun _ => .ok (fun _ _ => .ok ())) (stableConnection (idRows 12)) "en" 2).2 =
        [(10, 0), (10, 10)] := by
  have h : migrateTableVia (uploadBatchWith 3) 10 5 (fun _ => .ok (fun _ _ => .ok ()))
      (stableConnection (idRows 12)) "en" 2 = _ :=
    (migrateTable_all_succeed (fun _ _ _ => .ok ()) (idRows 12) "en" 3 10 5 2
      (by decide) (by decide) (by decide) (by decide) (fun _ _ => rfl)).1
  refine ⟨?_, ?_, ?_⟩
  · rw [h]; decide
  · rw [h]; decide
  · rw [h]; decide

/-- The claim C7 fails on the script: a table of 10250 rows is read as a page of 10000
rows and a page of 250 rows; when batch 1 of either page fails on all three attempts, the
two calls of `uploadToFirestore` return the same record `(1, 0, 250)`, although the
second failed batch holds the rows 10000 to 10249 of the table, which are not the rows
0 to 249. -/
theorem migrateTable_records_collide :
    (migrateTable (fun _ => .ok (fun j _ => if j = 1 then .error (.commit 0) else .ok ()))
        (stableConnection (idRows 10250)) "en" 2).1 =
        some (.ok ⟨2, [[⟨1, 0, 250⟩], [⟨1, 0, 250⟩]], [⟨1, 0, 250⟩, ⟨1, 0, 250⟩]⟩) ∧
      sliceOf 250 (sliceOf 10000 (idRows 10250) 1) 0 =
        ((idRows 10250).drop 10000).take 250 ∧
      ((idRows 10250).drop 10000).take 250 ≠ ((idRows 10250).drop 0).take 250 := by
  refine ⟨?_, ?_, ?_⟩
  · have h := fetchLoop_migrate (uploadBatchWith ((3 : Nat) : Int)) 250
      (fun _ j _ => if j = 1 then .error (.commit 0) else .ok ()) (idRows 10250) "en" 10000
      (by decide) 1 0 2 ⟨0, [], []⟩ rfl (by rw [length_idRows]) (by decide)
    have hcf := fun k => chunkFailures_uploadBatchWith 250
      (fun _ j _ => if j = 1 then .error (.commit 0) else .ok ()) (idRows 10250) "en" 10000 k 3
      (by decide) (by decide)
    have hcf2 : chunkFailures (uploadBatchWith ((3 : Nat) : Int)) 250
        (fun _ j _ => if j = 1 then .error (.commit 0) else .ok ()) (idRows 10250) "en" 10000 =
        fun k => _ := funext hcf
    rw [hcf2, length_idRows] at h
    have h2 : migrateTable
        (fun _ => .ok (fun j _ => if j = 1 then .error (.commit 0) else .ok ()))
        (stableConnection (idRows 10250)) "en" 2 = _ := h
    rw [h2]
    decide
  · simp [sliceOf, List.take_take]
  · intro h
    have h0 := congrArg (fun l => l[0]?) h
    simp [idRows, List.getElem?_take, List.getElem?_drop, List.getElem?_range] at h0

/-- C8. With a retry limit `r` and `1 ≤ k ≤ r`, when the first `k - 1` attempts of a batch
fail and attempt `k` succeeds, `uploadBatch` returns `true` after exactly `k` commit
attempts and `k - 1` backoffs, the backoff after attempt `i` being `2 ^ i * 1000` ms. Every
attempt stages the whole list of documents, the successful attempt is the last one, and
`uploadToFirestore` returns no record of that batch. -/
theorem uploadBatch_retries_until_success (db : DB) (c : String) (docs : List Doc)
    (data : List Row) (r b j k : Nat) (err : Nat → Err) (hk : 1 ≤ k) (hkr : k ≤ r)
    (hb : 1 ≤ b) (hdb : ∀ i, i < k - 1 → db (j + 1) i = .error (err i))
    (hok : db (j + 1) (k - 1) = .ok ()) :
    uploadBatch db c docs (j + 1) (r : Int) =
        (.ok (some true),
          failedAttempts (j + 1) docs (k - 1) ++
            [Event.commit (j + 1) targetCollection docs true]) ∧
      commitAttempts (uploadBatch db c docs (j + 1) (r : Int)).2 =
        List.replicate (k - 1) (j + 1, false) ++ [(j + 1, true)] ∧
      delays (uploadBatch db c docs (j + 1) (r : Int)).2 =
        (List.range (k - 1)).map (fun i => 2 ^ (i + 1) * 1000) ∧
      stagedDocs (uploadBatch db c docs (j + 1) (r : Int)).2 =
        List.replicate k (targetCollection, docs) ∧
      ∀ fs, (uploadToFirestoreVia (uploadBatchWith (r : Int)) b (.ok db) data c).1 = .ok fs →
        ∀ x ∈ fs, x.batchNumber ≠ j + 1 := by
  have hup := uploadBatch_succeeded db c docs (j + 1) r k err hk hkr hdb hok
  have hk1 : k - 1 + 1 = k := by omega
  refine ⟨hup, ?_, ?_, ?_, ?_⟩
  · rw [hup, commitAttempts_append, commitAttempts_failedAttempts]
    rfl
  · rw [hup, delays_append, delays_failedAttempts]
    show _ ++ [] = _
    rw [List.append_nil]
  · rw [hup, stagedDocs_append, stagedDocs_failedAttempts]
    show List.replicate (k - 1) (targetCollection, docs) ++ [(targetCollection, docs)] = _
    rw [replicate_snoc, hk1]
  · intro fs hfs x hx hnum
    rw [uploadToFirestoreVia_eq _ b db data c hb] at hfs
    cases hfs
    obtain ⟨i, _, hix⟩ := List.mem_filterMap.mp hx
    rw [batchRecord_uploadBatchWith b db data c r (by omega) i] at hix
    split at hix
    · rename_i hall
      cases hix
      have hij : i = j := by
        have : i + 1 = j + 1 := hnum
        omega
      subst hij
      have := (failsAll_iff db (i + 1) r).mp hall (k - 1) (by omega)
      rw [hok] at this
      cases this
    · cases hix

/-- Instance of C8: the second of three allowed attempts succeeds, after one backoff of
two seconds. -/
theorem uploadBatch_retries_until_success_witness :
    uploadBatch (fun _ a => if a = 0 then .error (.commit 0) else .ok ()) "en"
        [[("id", .number 1)]] 1 3 =
      (.ok (some true),
        [Event.commit 1 targetCollection [[("id", .number 1)]] false, Event.delay 2000,
          Event.commit 1 targetCollection [[("id", .number 1)]] true]) :=
  (uploadBatch_retries_until_success
    (fun _ a => if a = 0 then .error (.commit 0) else .ok ()) "en" [[("id", .number 1)]]
    [[("id", .number 1)]] 3 250 0 2 (fun _ => .commit 0) (by decide) (by decide) (by decide)
    (fun i hi => by
      have h0 : i = 0 := by omega
      subst h0
      rfl)
    rfl).1

/-- The claim C9 fails: an error that the `try` block of `uploadBatch` throws without
being a rejected commit leaves `uploadBatch` after the last retry, and a helper may throw
without any commit attempt; in both cases `uploadToFirestore` returns normally, with a
record of the batch. -/
theorem uploadToFirestore_records_any_error :
    (uploadBatch (fun _ _ => .error (.other 7)) "en" [processData [("id", .number 1)]] 1
        defaultRetries).1 = .error (.other 7) ∧
      (uploadToFirestore (.ok (fun _ _ => .error (.other 7))) [[("id", .number 1)]] "en").1 =
        .ok [⟨1, 0, 1⟩] ∧
      uploadToFirestoreVia (fun _ _ _ _ => (.error (.other 7), [])) defaultBatchSize
        (.ok (fun _ _ => .ok ())) [[("id", .number 1)]] "en" = (.ok [⟨1, 0, 1⟩], []) := by
  decide

/-- C9, amended. With a handle and a sub-batch size `b ≥ 1`, `uploadToFirestore` treats
every error that its helper throws in the same way, whatever the error is: the batch is
recorded and the loop goes on with the next batch, so that the call returns normally with
one record for every batch for which the helper threw, and every batch is handed to the
helper. No such error leaves `uploadToFirestore`. -/
theorem uploadToFirestore_catches_all (upload : Uploader) (b : Nat) (db : DB)
    (data : List Row) (c : String) (hb : 1 ≤ b) :
    uploadToFirestoreVia upload b (.ok db) data c =
      (.ok ((List.range (ceilDiv data.length b)).filterMap (fun j =>
          match (upload db c (batchDocs b data j) (j + 1)).1 with
          | .ok _ => none
          | .error _ => some ⟨j + 1, j * b, min ((j + 1) * b) data.length⟩)),
        (List.range (ceilDiv data.length b)).flatMap (fun j =>
          (upload db c (batchDocs b data j) (j + 1)).2 ++
            match (upload db c (batchDocs b data j) (j + 1)).1 with
            | .ok _ => [Event.delay 500]
            | .error _ => [])) := by
  rw [uploadToFirestoreVia_eq upload b db data c hb]
  rfl

/-- Instance of C9, amended: the helper throws for the second of three batches. -/
theorem uploadToFirestore_catches_all_witness :
    1 ≤ 1 ∧
      uploadToFirestoreVia
        (fun _ _ docs j => if j = 2 then (.error (.other 7), []) else
          (.ok (some true), [Event.commit j targetCollection docs true]))
        1 (.ok (fun _ _ => .ok ())) (idRows 3) "en" =
      (.ok [⟨2, 1, 2⟩],
        [Event.commit 1 targetCollection [[("id", .number 0)]] true, Event.delay 500,
          Event.commit 3 targetCollection [[("id", .number 2)]] true, Event.delay 500]) :=
  ⟨by decide,
    (uploadToFirestore_catches_all
      (fun _ _ docs j => if j = 2 then (.error (.other 7), []) else
        (.ok (some true), [Event.commit j targetCollection docs true]))
      1 (fun _ _ => .ok ()) (idRows 3) "en" (by decide)).trans (by decide)⟩

/-- C10. With a handle, a retry limit `r ≥ 1` and a sub-batch size `b ≥ 1`, the trace of
`uploadToFirestore` is, batch after batch, the trace of `uploadBatch` followed by one
pause of 500 ms when the upload succeeded and by nothing when the retries were exhausted.
No backoff lasts 500 ms, so that the number of pauses of 500 ms and the number of returned
records add up to `ceil(L / b)`. -/
theorem uploadToFirestore_pauses (db : DB) (data : List Row) (c : String) (r b : Nat)
    (hr : 1 ≤ r) (hb : 1 ≤ b) :
    (uploadToFirestoreVia (uploadBatchWith (r : Int)) b (.ok db) data c).2 =
        (List.range (ceilDiv data.length b)).flatMap (fun j =>
          (uploadBatch db c (batchDocs b data j) (j + 1) (r : Int)).2 ++
            if failsAll db (j + 1) r = true then [] else [Event.delay 500]) ∧
      (∀ j docs, (uploadBatch db c docs j (r : Int)).2.count (Event.delay 500) = 0) ∧
      ∃ fs, (uploadToFirestoreVia (uploadBatchWith (r : Int)) b (.ok db) data c).1 = .ok fs ∧
        (uploadToFirestoreVia (uploadBatchWith (r : Int)) b (.ok db) data c).2.count
          (Event.delay 500) = ceilDiv data.length b - fs.length ∧
        fs.length ≤ ceilDiv data.length b := by
  have heq := uploadToFirestoreVia_eq (uploadBatchWith (r : Int)) b db data c hb
  have htr : batchTrace (uploadBatchWith (r : Int)) b db data c = fun j =>
      (uploadBatch db c (batchDocs b data j) (j + 1) (r : Int)).2 ++
        if failsAll db (j + 1) r = true then [] else [Event.delay 500] := by
    funext j
    exact batchTrace_uploadBatchWith b db data c r hr j
  refine ⟨?_, fun j docs => count_pause_uploadBatch db c docs j _, ?_⟩
  · rw [heq, htr]
  · have hcount := count_flatMap_add_length (Event.delay 500)
      (batchRecord (uploadBatchWith (r : Int)) b db data c)
      (batchTrace (uploadBatchWith (r : Int)) b db data c)
      (by
        intro i
        rw [batchTrace_uploadBatchWith b db data c r hr i,
          batchRecord_uploadBatchWith b db data c r hr i, List.count_append,
          count_pause_uploadBatch]
        cases failsAll db (i + 1) r <;> simp)
      (List.range (ceilDiv data.length b))
    rw [List.length_range] at hcount
    refine ⟨_, by rw [heq], ?_, ?_⟩
    · rw [heq]
      dsimp only
      omega
    · omega

/-- Instance of C10: three batches of one row, the second of which fails three times, give
two pauses of 500 ms and one record. -/
theorem uploadToFirestore_pauses_witness :
    1 ≤ 3 ∧ 1 ≤ 1 ∧
      (uploadToFirestoreVia (uploadBatchWith 3) 1
        (.ok (fun j _ => if j = 2 then .error (.commit 0) else .ok ())) (idRows 3) "en").2 =
      [Event.commit 1 targetCollection [[("id", .number 0)]] true, Event.delay 500,
        Event.commit 2 targetCollection [[("id", .number 1)]] false, Event.delay 2000,
        Event.commit 2 targetCollection [[("id", .number 1)]] false, Event.delay 4000,
        Event.commit 2 targetCollection [[("id", .number 1)]] false,
        Event.commit 3 targetCollection [[("id", .number 2)]] true, Event.delay 500] := by
  have h : (uploadToFirestoreVia (uploadBatchWith 3) 1
      (.ok (fun j _ => if j = 2 then .error (.commit 0) else .ok ())) (idRows 3) "en").2 = _ :=
    (uploadToFirestore_pauses (fun j _ => if j = 2 then .error (.commit 0) else .ok ())
      (idRows 3) "en" 3 1 (by decide) (by decide)).1
  exact ⟨by decide, by decide, h.trans (by decide)⟩

/-! ## Lemmas for the events of a run -/

/-- Events of the retry loop: commits into the fixed collection and delays. -/
theorem uploadBatchLoop_events (q : Event → Prop) (db : DB) (docs : List Doc) (j : Nat)
    (retries : Int) (hc : ∀ ok, q (Event.commit j targetCollection docs ok))
    (hd : ∀ ms, q (Event.delay ms)) :
    ∀ (fuel attempt : Nat), ∀ e ∈ (uploadBatchLoop db docs j retries fuel attempt).2, q e := by
  intro fuel
  induction fuel with
  | zero => intro attempt e he; simp [uploadBatchLoop] at he
  | succ fuel ih =>
    intro attempt e he
    rw [uploadBatchLoop] at he
    split at he
    · split at he
      · simp only [List.mem_singleton] at he
        rw [he]; exact hc true
      · split at he
        · simp only [List.mem_singleton] at he
          rw [he]; exact hc false
        · simp only [List.mem_cons] at he
          rcases he with he | he | he
          · rw [he]; exact hc false
          · rw [he]; exact hd _
          · exact ih (attempt + 1) e he
    · simp at he

/-- Events of the loop of `uploadToFirestore`: events of the helper and delays. -/
theorem uploadLoop_events (q : Event → Prop) (upload : Uploader) (b : Nat) (db : DB)
    (data : List Row) (c : String)
    (hup : ∀ docs j, ∀ e ∈ (upload db c docs j).2, q e) (hd : ∀ ms, q (Event.delay ms)) :
    ∀ (fuel i : Nat) (fs : List Failure),
      ∀ e ∈ (uploadLoop upload b db data c fuel i fs).2, q e := by
  intro fuel
  induction fuel with
  | zero => intro i fs e he; simp [uploadLoop] at he
  | succ fuel ih =>
    intro i fs e he
    rw [uploadLoop] at he
    split at he
    · dsimp only at he
      have hmem := hup (List.map processData (List.take b (List.drop i data))) (i / b + 1)
      rcases hres : upload db c (List.map processData (List.take b (List.drop i data)))
        (i / b + 1) with ⟨res, t⟩
      rw [hres] at he hmem
      cases res with
      | ok v =>
        simp only [List.mem_append, List.mem_cons] at he
        rcases he with he | he | he
        · exact hmem e he
        · rw [he]; exact hd _
        · exact ih _ _ e he
      | error err =>
        simp only [List.mem_append] at he
        rcases he with he | he
        · exact hmem e he
        · exact ih _ _ e he
    · simp at he

/-- Events of a call of `uploadToFirestore` with the retry helper. -/
theorem uploadToFirestoreVia_events (q : Event → Prop) (r : Int) (b : Nat)
    (admin : Except Err DB) (data : List Row) (c : String)
    (hc : ∀ j docs ok, q (Event.commit j targetCollection docs ok))
    (hd : ∀ ms, q (Event.delay ms)) :
    ∀ e ∈ (uploadToFirestoreVia (uploadBatchWith r) b admin data c).2, q e := by
  intro e he
  unfold uploadToFirestoreVia at he
  cases admin with
  | error err => simp at he
  | ok db =>
    exact uploadLoop_events q (uploadBatchWith r) b db data c
      (fun docs j e he => uploadBatchLoop_events q db docs j r (hc j docs) hd _ _ e he)
      hd _ _ _ e he

/-- The loop of `uploadToFirestore` with the retry helper does not use the collection. -/
theorem uploadLoop_collection (r : Int) (b : Nat) (db : DB) (data : List Row)
    (c₁ c₂ : String) :
    ∀ (fuel i : Nat) (fs : List Failure),
      uploadLoop (uploadBatchWith r) b db data c₁ fuel i fs =
        uploadLoop (uploadBatchWith r) b db data c₂ fuel i fs := by
  intro fuel
  induction fuel with
  | zero => intro i fs; rfl
  | succ fuel ih =>
    intro i fs
    rw [uploadLoop, uploadLoop]
    have hsame : ∀ docs j,
        uploadBatchWith r db c₁ docs j = uploadBatchWith r db c₂ docs j := fun _ _ => rfl
    simp only [hsame, ih]

theorem flatMap_const_singleton {α : Type} (a : α) (n : Nat) :
    (List.range n).flatMap (fun _ => [a]) = List.replicate n a := by
  induction n with
  | zero => rfl
  | succ n ih => rw [List.range_succ, List.flatMap_append, ih, ← replicate_snoc]; rfl

theorem processValue_idem (v : Value) : processValue (processValue v) = processValue v := by
  cases v <;> rfl

/-- Converting the values of a row gives a row. -/
theorem isRow_map (row : Row) (g : Value → Value) (h : IsRow row) :
    IsRow (row.map (fun e => (e.1, g e.2))) := by
  obtain ⟨⟨hpw, hnd⟩, hproto⟩ := h
  refine ⟨⟨?_, ?_⟩, ?_⟩
  · rw [List.pairwise_map]
    exact hpw.imp (fun {a b} hab => (keyBefore_congr _ a _ b rfl rfl).mpr hab)
  · rw [List.map_map]
    exact hnd
  · intro e he
    obtain ⟨y, hy, rfl⟩ := List.mem_map.mp he
    exact hproto y hy

/-- Full pages followed by a failing query: the generator hands every page to the
consumer and then stops with the error of the failing query. -/
theorem fetchLoop_until_error {σ : Type} (connection : Connection) (table : String) (p : Nat)
    (st : List Row → σ → σ) (tr : List Row → σ → List Event) (pages : Nat → List Row)
    (e : Err) (hp : 0 < p) :
    ∀ (n i fuel : Nat) (s : σ), n + 1 ≤ fuel →
      (∀ m, m < n → connection (i + m) table p ((i + m) * p) = .ok (pages (i + m)) ∧
        (pages (i + m)).length = p) →
      connection (i + n) table p ((i + n) * p) = .error e →
      fetchLoop connection table p (consumer st tr) fuel i (i * p) s =
        (some (.error e),
          yieldedTrace table p st tr pages n i s ++ [Event.query table p ((i + n) * p)]) := by
  intro n
  induction n with
  | zero =>
    intro i fuel s hfuel _ herr
    obtain ⟨fuel, rfl⟩ : ∃ f, fuel = f + 1 := ⟨fuel - 1, by omega⟩
    rw [Nat.add_zero] at herr
    rw [fetchLoop, herr]
    simp [yieldedTrace]
  | succ n ih =>
    intro i fuel s hfuel hpages herr
    obtain ⟨fuel, rfl⟩ : ∃ f, fuel = f + 1 := ⟨fuel - 1, by omega⟩
    obtain ⟨hpage, hlen⟩ := hpages 0 (by omega)
    rw [Nat.add_zero] at hpage hlen
    have h3 : i * p + p = (i + 1) * p := (Nat.succ_mul i p).symm
    have hrest := ih (i + 1) fuel (st (pages i) s) (by omega)
      (fun m hm => by
        have := hpages (m + 1) (by omega)
        rwa [show i + (m + 1) = i + 1 + m by omega] at this)
      (by rwa [show i + (n + 1) = i + 1 + n by omega] at herr)
    rw [fetchLoop, hpage]
    simp only [consumer, hlen, hp, gt_iff_lt, if_true, h3, hrest, yieldedTrace]
    simp [show i + 1 + n = i + (n + 1) by omega]

/-- Without a trace of the consumer, the rounds leave the queries alone. -/
theorem yieldedTrace_silent {σ : Type} (table : String) (p : Nat) (st : List Row → σ → σ)
    (pages : Nat → List Row) :
    ∀ (n i : Nat) (s : σ),
      yieldedTrace table p st (fun _ _ => []) pages n i s =
        (List.range' i n).map (fun m => Event.query table p (m * p)) := by
  intro n
  induction n with
  | zero => intro i s; rfl
  | succ n ih =>
    intro i s
    rw [yieldedTrace, ih, List.range'_succ]
    rfl

theorem queriesOf_map_query (table : String) (p : Nat) (l : List Nat) :
    queriesOf (l.map (fun m => Event.query table p (m * p))) = l.map (fun m => (p, m * p)) := by
  induction l with
  | nil => rfl
  | cons a l ih =>
    rw [List.map_cons, List.map_cons, ← ih]
    rfl

/-- Events of the page loop: queries and events of the consumer. -/
theorem fetchLoop_events {σ : Type} (q : Event → Prop) (connection : Connection)
    (table : String) (p : Nat) (body : List Row → σ → Except Err σ × List Event)
    (hbody : ∀ rows s, ∀ e ∈ (body rows s).2, q e)
    (hq : ∀ o, q (Event.query table p o)) :
    ∀ (fuel k o : Nat) (s : σ), ∀ e ∈ (fetchLoop connection table p body fuel k o s).2, q e := by
  intro fuel
  induction fuel with
  | zero => intro k o s e he; simp [fetchLoop] at he
  | succ fuel ih =>
    intro k o s e he
    rw [fetchLoop] at he
    cases hconn : connection k table p o with
    | error err =>
      rw [hconn] at he
      simp only [List.mem_singleton] at he
      rw [he]; exact hq o
    | ok rows =>
      rw [hconn] at he
      dsimp only at he
      split at he
      · have hmem := hbody rows s
        rcases hres : body rows s with ⟨res, t⟩
        rw [hres] at he hmem
        cases res with
        | error err =>
          simp only [List.mem_cons] at he
          rcases he with he | he
          · rw [he]; exact hq o
          · exact hmem e he
        | ok s' =>
          dsimp only at he
          split at he
          · simp only [List.mem_cons, List.mem_append] at he
            rcases he with he | he | he
            · rw [he]; exact hq o
            · exact hmem e he
            · exact ih _ _ _ e he
          · simp only [List.mem_cons] at he
            rcases he with he | he
            · rw [he]; exact hq o
            · exact hmem e he
      · split at he
        · simp only [List.mem_cons] at he
          rcases he with he | he
          · rw [he]; exact hq o
          · exact ih _ _ _ e he
        · simp only [List.mem_singleton] at he
          rw [he]; exact hq o

/-- Events of the per-table loop: queries, commits into the fixed collection, delays. -/
theorem migrateTable_events (q : Event → Prop) (admin : Nat → Except Err DB)
    (connection : Connection) (table : String) (fuel : Nat)
    (hq : ∀ t l o, q (Event.query t l o))
    (hc : ∀ j docs ok, q (Event.commit j targetCollection docs ok))
    (hd : ∀ ms, q (Event.delay ms)) :
    ∀ e ∈ (migrateTable admin connection table fuel).2, q e := by
  unfold migrateTable migrateTableVia fetchMySQLDataInChunks
  apply fetchLoop_events q
  · intro rows s e he
    have hup := uploadToFirestoreVia_events q defaultRetries defaultBatchSize (admin s.calls)
      rows table hc hd
    unfold migrateChunkVia at he
    rcases hres : uploadToFirestoreVia (uploadBatchWith defaultRetries) defaultBatchSize
      (admin s.calls) rows table with ⟨res, t⟩
    rw [hres] at he hup
    cases res with
    | error err => exact hup e he
    | ok fs => exact hup e he
  · exact fun o => hq _ _ o

/-- Events of the loop over the tables. -/
theorem migrateTables_events (q : Event → Prop) (firestore : String → Nat → Except Err DB)
    (connection : Connection) (fuel : Nat)
    (hq : ∀ t l o, q (Event.query t l o))
    (hc : ∀ j docs ok, q (Event.commit j targetCollection docs ok))
    (hd : ∀ ms, q (Event.delay ms)) :
    ∀ (tables : List String),
      ∀ e ∈ (migrateTables firestore connection fuel tables).2, q e := by
  intro tables
  induction tables with
  | nil => intro e he; simp [migrateTables] at he
  | cons table rest ih =>
    intro e he
    have htab := migrateTable_events q (firestore table) connection table fuel hq hc hd
    rw [migrateTables] at he
    rcases hres : migrateTable (firestore table) connection table fuel with ⟨res, t⟩
    rw [hres] at he htab
    cases res with
    | none => exact htab e he
    | some out =>
      cases out with
      | error err => exact htab e he
      | ok v =>
        simp only [List.mem_append] at he
        rcases he with he | he
        · exact htab e he
        · exact ih e he

/-- The `try` block does not close the connection. -/
theorem close_not_mem_migrateBody (w : World) (connection : Connection) (fuel : Nat) :
    Event.close ∉ (migrateBody w connection fuel).2 := by
  intro he
  unfold migrateBody at he
  cases hinit : w.initializeFirebase with
  | error err =>
    rw [hinit] at he
    simp at he
  | ok v =>
    rw [hinit] at he
    simp only [List.mem_cons, reduceCtorEq, false_or] at he
    exact migrateTables_events (fun e => e ≠ Event.close) w.firestore connection fuel
      (fun _ _ _ => by simp) (fun _ _ _ => by simp) (fun _ => by simp) tablesToMigrate
      Event.close he rfl

/-! ## The verified properties, continued -/

/-- C12. Neither `uploadBatch` nor `uploadToFirestore` depends on its argument
`collection`: for every handle, every outcome of `admin.firestore()`, every retry limit
and sub-batch size and every two collection names the two calls have the same result and
the same trace, and every commit of the trace stages into the fixed collection
`fcc_amateur_aamir`. -/
theorem upload_ignores_collection (db : DB) (admin : Except Err DB) (docs : List Doc)
    (data : List Row) (j : Nat) (r : Int) (b : Nat) (c₁ c₂ : String) :
    uploadBatch db c₁ docs j r = uploadBatch db c₂ docs j r ∧
      uploadToFirestoreVia (uploadBatchWith r) b admin data c₁ =
        uploadToFirestoreVia (uploadBatchWith r) b admin data c₂ ∧
      uploadToFirestore admin data c₁ = uploadToFirestore admin data c₂ ∧
      (uploadBatch db c₁ docs j r).2.all intoTarget = true ∧
      (uploadToFirestoreVia (uploadBatchWith r) b admin data c₁).2.all intoTarget = true ∧
      (stagedDocs (uploadToFirestore admin data c₁).2).all
        (fun x => x.1 == targetCollection) = true := by
  have hvia : ∀ (r : Int) (b : Nat),
      uploadToFirestoreVia (uploadBatchWith r) b admin data c₁ =
        uploadToFirestoreVia (uploadBatchWith r) b admin data c₂ := by
    intro r b
    unfold uploadToFirestoreVia
    cases admin with
    | error e => rfl
    | ok db => simp only [uploadLoop_collection r b db data c₁ c₂]
  have htarget : ∀ j docs ok, intoTarget (Event.commit j targetCollection docs ok) = true := by
    intro j docs ok
    simp [intoTarget]
  have hvia2 : ∀ (r : Int) (b : Nat),
      ∀ e ∈ (uploadToFirestoreVia (uploadBatchWith r) b admin data c₁).2,
        intoTarget e = true :=
    fun r b => uploadToFirestoreVia_events (fun e => intoTarget e = true) r b admin data c₁
      htarget (fun _ => rfl)
  refine ⟨rfl, hvia r b, hvia _ _, ?_, ?_, ?_⟩
  · rw [List.all_eq_true]
    exact uploadBatchLoop_events (fun e => intoTarget e = true) db docs j r (htarget j docs)
      (fun _ => rfl) _ _
  · rw [List.all_eq_true]
    exact hvia2 r b
  · rw [List.all_eq_true]
    intro x hx
    obtain ⟨e, he, hex⟩ := List.mem_filterMap.mp hx
    have h := hvia2 defaultRetries defaultBatchSize e he
    cases e with
    | commit j c docs ok =>
      simp only [Option.some.injEq] at hex
      rw [← hex]
      exact h
    | _ => simp at hex

/-- C14. With a retry limit `r ≤ 0`, `uploadBatch` makes no commit attempt and no delay and
returns `undefined` without throwing, because the loop condition fails at once. A call
of `uploadToFirestore` with such a helper returns the empty failure list, and its trace
holds the pause of every batch and no commit. -/
theorem uploadBatch_without_attempts (db : DB) (c : String) (docs : List Doc)
    (data : List Row) (j : Nat) (r : Int) (b : Nat) (hr : r ≤ 0) (hb : 1 ≤ b) :
    uploadBatch db c docs j r = (.ok none, []) ∧
      (∀ fuel, uploadBatchLoop db docs j r fuel 0 = (.ok none, [])) ∧
      uploadToFirestoreVia (uploadBatchWith r) b (.ok db) data c =
        (.ok [], List.replicate (ceilDiv data.length b) (Event.delay 500)) := by
  have hloop : ∀ fuel, uploadBatchLoop db docs j r fuel 0 = (.ok none, []) := by
    intro fuel
    cases fuel with
    | zero => rfl
    | succ fuel =>
      have h0 : ¬ (((0 : Nat) : Int) < r) := by omega
      rw [uploadBatchLoop, if_neg h0]
  have hup : ∀ docs j, uploadBatch db c docs j r = (.ok none, []) := by
    intro docs j
    unfold uploadBatch
    rw [Int.toNat_of_nonpos hr]
    rfl
  refine ⟨hup docs j, hloop, ?_⟩
  rw [uploadToFirestoreVia_eq _ b db data c hb]
  have hrec : batchRecord (uploadBatchWith r) b db data c = fun _ => none := by
    funext i
    simp [batchRecord, uploadBatchWith, hup]
  have htr : batchTrace (uploadBatchWith r) b db data c = fun _ => [Event.delay 500] := by
    funext i
    simp [batchTrace, uploadBatchWith, hup]
  rw [hrec, htr, flatMap_const_singleton]
  simp

/-- Instance of C14: with the limit 0, three rows in batches of one row give three pauses,
no commit and no record, although the handle would reject every commit. -/
theorem uploadBatch_without_attempts_witness :
    (0 : Int) ≤ 0 ∧ 1 ≤ 1 ∧
      uploadToFirestoreVia (uploadBatchWith 0) 1 (.ok (fun _ _ => .error (.commit 0)))
        (idRows 3) "en" =
      (.ok [], [Event.delay 500, Event.delay 500, Event.delay 500]) :=
  ⟨by decide, by decide,
    (uploadBatch_without_attempts (fun _ _ => .error (.commit 0)) "en" [] (idRows 3) 1 0 1
      (by decide) (by decide)).2.2.trans (by decide)⟩

/-- C15. `processData` is not injective: the rows `{k: 5n}` and `{k: "5"}` differ, have
the same field names and give the same document, and so do a row with the buffer of the
bytes 77, 97, 110 and the row with the string `TWFu`. -/
theorem processData_not_injective :
    (∃ r₁ r₂ : Row, IsRow r₁ ∧ IsRow r₂ ∧ r₁.map Prod.fst = r₂.map Prod.fst ∧ r₁ ≠ r₂ ∧
        processData r₁ = processData r₂) ∧
      processData [("k", .bigint 5)] = [("k", .string "5")] ∧
      processData [("k", .string "5")] = [("k", .string "5")] ∧
      processData [("k", .buffer [77, 97, 110])] = [("k", .string "TWFu")] ∧
      processData [("k", .string "TWFu")] = [("k", .string "TWFu")] ∧
      ¬ Function.Injective processData := by
  refine ⟨⟨[("k", .bigint 5)], [("k", .string "5")], by decide, by decide, by decide,
    by decide, by decide⟩, by decide, by decide, by decide, by decide, ?_⟩
  intro hinj
  have h : ([("k", Value.bigint 5)] : Row) = [("k", Value.string "5")] := hinj (by decide)
  exact absurd h (by decide)

/-- C16. `processData` is idempotent on rows: applying it to its own result changes
nothing, because every converted value is of a kind that the conversion keeps. -/
theorem processData_idempotent (row : Row) (h : IsRow row) :
    processData (processData row) = processData row ∧
      IsRow (processData row) ∧
      ∀ v, processValue (processValue v) = processValue v := by
  have hmap := processData_eq_map row h
  have hrow : IsRow (processData row) := by
    rw [hmap]
    exact isRow_map row processValue h
  refine ⟨?_, hrow, processValue_idem⟩
  rw [processData_eq_map _ hrow, hmap, List.map_map]
  apply List.map_congr_left
  intro e _
  simp [processValue_idem]

/-- Instance of C16: a row with a field of every converted kind. -/
theorem processData_idempotent_witness :
    IsRow [("id", .bigint (-5)), ("at", .date 1000), ("raw", .buffer [77, 97, 110])] ∧
      processData (processData
        [("id", .bigint (-5)), ("at", .date 1000), ("raw", .buffer [77, 97, 110])]) =
      [("id", .string "-5"), ("at", .timestamp ⟨1000⟩), ("raw", .string "TWFu")] :=
  ⟨by decide,
    (processData_idempotent
      [("id", .bigint (-5)), ("at", .date 1000), ("raw", .buffer [77, 97, 110])]
      (by decide)).1.trans (by decide)⟩

/-- C11. With a page size `p ≥ 1`, when the first `k - 1` queries each return `p` rows
and query `k` fails, the generator hands exactly those `k - 1` pages to its consumer, in
order, and then ends with the error of query `k`; this holds for every consumer that does
not throw and for every bound of at least `k` iterations. Exactly `k` queries are issued,
query `i` (from 0) at offset `i * p`: the failing query is the last one. -/
theorem fetch_query_error {σ : Type} (connection : Connection) (table : String)
    (p k fuel : Nat) (st : List Row → σ → σ) (tr : List Row → σ → List Event)
    (pages : Nat → List Row) (s : σ) (e : Err) (hp : 1 ≤ p) (hk : 1 ≤ k) (hfuel : k ≤ fuel)
    (hpages : ∀ i, i < k - 1 →
      connection i table p (i * p) = .ok (pages i) ∧ (pages i).length = p)
    (herr : connection (k - 1) table p ((k - 1) * p) = .error e) :
    fetchMySQLDataInChunks connection table p (consumer st tr) fuel s =
        (some (.error e),
          yieldedTrace table p st tr pages (k - 1) 0 s ++
            [Event.query table p ((k - 1) * p)]) ∧
      fetchMySQLDataInChunks connection table p collectChunks fuel [] =
        (some (.error e), (List.range k).map (fun i => Event.query table p (i * p))) ∧
      queriesOf (fetchMySQLDataInChunks connection table p collectChunks fuel []).2 =
        (List.range k).map (fun i => (p, i * p)) := by
  have hgen : ∀ (τ : Type) (st : List Row → τ → τ) (tr : List Row → τ → List Event) (s : τ),
      fetchMySQLDataInChunks connection table p (consumer st tr) fuel s =
        (some (.error e),
          yieldedTrace table p st tr pages (k - 1) 0 s ++
            [Event.query table p ((k - 1) * p)]) := by
    intro τ st tr s
    have h := fetchLoop_until_error connection table p st tr pages e hp (k - 1) 0 fuel s
      (by omega) (fun m hm => by simpa using hpages m hm) (by simpa using herr)
    simpa [fetchMySQLDataInChunks] using h
  have hcollect : fetchMySQLDataInChunks connection table p collectChunks fuel [] =
      (some (.error e), (List.range k).map (fun i => Event.query table p (i * p))) := by
    have h := hgen (List (List Row)) (fun rows chunks => chunks ++ [rows]) (fun _ _ => []) []
    have hc : consumer (fun rows chunks => chunks ++ [rows]) (fun _ _ => []) = collectChunks :=
      rfl
    rw [hc, yieldedTrace_silent] at h
    rw [h]
    have hk1 : k = (k - 1) + 1 := by omega
    conv_rhs => rw [hk1, List.range_succ, List.map_append]
    simp [List.range_eq_range']
  refine ⟨hgen σ st tr s, hcollect, ?_⟩
  rw [hcollect]
  exact queriesOf_map_query table p _

/-- Instance of C11: the first query returns a full page of two rows and the second
query fails; the consumer collects the pages. -/
theorem fetch_query_error_witness :
    fetchMySQLDataInChunks
        (fun i _ _ _ => if i = 0 then .ok (idRows 2) else .error (.query 1)) "en" 2
        collectChunks 2 [] =
      (some (.error (.query 1)), [Event.query "en" 2 0, Event.query "en" 2 2]) :=
  (fetch_query_error (fun i _ _ _ => if i = 0 then .ok (idRows 2) else .error (.query 1)) "en"
    2 2 2 (fun rows chunks => chunks ++ [rows]) (fun _ _ => []) (fun _ => idRows 2) [] (.query 1)
    (by decide) (by decide) (by decide)
    (fun i hi => by
      have h0 : i = 0 := by omega
      subst h0
      exact ⟨rfl, by decide⟩)
    rfl).2.1

/-- The claim C13 fails in its last part: in a run whose connection opens, whose only
query fails with the error `query 2` and whose `connection.end()` rejects with the error
`other 8`, the connection is closed once, as the last action, but the run ends with
`other 8`: the error of the query does not reach the caller. -/
theorem migrateToFirestore_close_error_replaces :
    (migrateBody
        (World.mk (.ok (fun _ _ _ _ => .error (.query 2))) (.ok ())
          (fun _ _ => .ok (fun _ _ => .ok ())) (.error (.other 8)))
        (fun _ _ _ _ => .error (.query 2)) 1).1 = some (.error (.query 2)) ∧
      migrateToFirestore
        (World.mk (.ok (fun _ _ _ _ => .error (.query 2))) (.ok ())
          (fun _ _ => .ok (fun _ _ => .ok ())) (.error (.other 8))) 1 =
        (some (.error (.other 8)),
          [Event.connect, Event.initializeApp, Event.query "en" 10000 0, Event.close]) ∧
      (migrateToFirestore
        (World.mk (.ok (fun _ _ _ _ => .error (.query 2))) (.ok ())
          (fun _ _ => .ok (fun _ _ => .ok ())) (.error (.other 8))) 1).1 ≠
        some (.error (.query 2)) := by
  decide

/-- C13, amended. In every run of `migrateToFirestore` that opens the connection and whose
`try` block comes to an end, by completing or by throwing (a failed initialisation of the
target, a failed query, an error of the upload path), `connection.end()` is called exactly
once, as the last action of the run and so after every query and every commit. When
`connection.end()` resolves, the outcome of the `try` block, be it an error, is the
outcome of the run; when `connection.end()` rejects, its error is the outcome of the run
in place of the outcome of the `try` block. -/
theorem migrateToFirestore_closes_once (w : World) (connection : Connection) (fuel : Nat)
    (outcome : Except Err Unit) (hopen : w.createConnection = .ok connection)
    (hend : (migrateBody w connection fuel).1 = some outcome) :
    (migrateToFirestore w fuel).2 =
        Event.connect :: ((migrateBody w connection fuel).2 ++ [Event.close]) ∧
      Event.close ∉ (migrateBody w connection fuel).2 ∧
      (migrateToFirestore w fuel).2.count Event.close = 1 ∧
      (migrateToFirestore w fuel).2.getLast? = some Event.close ∧
      (w.connectionEnd = .ok () → (migrateToFirestore w fuel).1 = some outcome) ∧
      (∀ e, w.connectionEnd = .error e →
        (migrateToFirestore w fuel).1 = some (.error e)) := by
  have hnot := close_not_mem_migrateBody w connection fuel
  have htrace : (migrateToFirestore w fuel).2 =
      Event.connect :: ((migrateBody w connection fuel).2 ++ [Event.close]) := by
    unfold migrateToFirestore
    rw [hopen]
    dsimp only
    rcases hbody : migrateBody w connection fuel with ⟨res, t⟩
    rw [hbody] at hend
    simp only at hend
    subst hend
    cases w.connectionEnd <;> rfl
  refine ⟨htrace, hnot, ?_, ?_, ?_, ?_⟩
  · rw [htrace, List.count_cons, List.count_append, List.count_eq_zero.mpr hnot]
    simp
  · rw [htrace, ← List.cons_append, List.getLast?_concat]
  · intro hclose
    unfold migrateToFirestore
    rw [hopen]
    dsimp only
    rcases hbody : migrateBody w connection fuel with ⟨res, t⟩
    rw [hbody] at hend
    simp only at hend
    subst hend
    rw [hclose]
  · intro e hclose
    unfold migrateToFirestore
    rw [hopen]
    dsimp only
    rcases hbody : migrateBody w connection fuel with ⟨res, t⟩
    rw [hbody] at hend
    simp only at hend
    subst hend
    rw [hclose]

/-- Instance of C13, amended: a table of two rows, in a run that completes, in a run whose
initialisation of the target fails, in a run whose query fails and in a run in which
`admin.firestore()` throws inside `uploadToFirestore`. Every trace ends with the one
`close`, and the error of the `try` block is the outcome of the run. -/
theorem migrateToFirestore_closes_once_witness :
    ((migrateToFirestore
        (worldOf (stableConnection (idRows 2)) (.ok ()) (.ok (fun _ _ => .ok ()))) 1).1 =
        some (.ok ()) ∧
      (migrateToFirestore
        (worldOf (stableConnection (idRows 2)) (.ok ()) (.ok (fun _ _ => .ok ()))) 1).2 =
        [Event.connect, Event.initializeApp, Event.query "en" 10000 0,
          Event.commit 1 targetCollection [[("id", .number 0)], [("id", .number 1)]] true,
          Event.delay 500, Event.close]) ∧
      ((migrateToFirestore
        (worldOf (stableConnection (idRows 2)) (.error (.other 1))
          (.ok (fun _ _ => .ok ()))) 1).1 = some (.error (.other 1)) ∧
      (migrateToFirestore
        (worldOf (stableConnection (idRows 2)) (.error (.other 1))
          (.ok (fun _ _ => .ok ()))) 1).2 =
        [Event.connect, Event.initializeApp, Event.close]) ∧
      ((migrateToFirestore
        (worldOf (fun _ _ _ _ => .error (.query 2)) (.ok ()) (.ok (fun _ _ => .ok ()))) 1).1 =
        some (.error (.query 2)) ∧
      (migrateToFirestore
        (worldOf (fun _ _ _ _ => .error (.query 2)) (.ok ()) (.ok (fun _ _ => .ok ()))) 1).2 =
        [Event.connect, Event.initializeApp, Event.query "en" 10000 0, Event.close]) ∧
      ((migrateToFirestore
        (worldOf (stableConnection (idRows 2)) (.ok ()) (.error (.other 3))) 1).1 =
        some (.error (.other 3)) ∧
      (migrateToFirestore
        (worldOf (stableConnection (idRows 2)) (.ok ()) (.error (.other 3))) 1).2 =
        [Event.connect, Event.initializeApp, Event.query "en" 10000 0, Event.close]) := by
  have h1 := migrateToFirestore_closes_once
    (worldOf (stableConnection (idRows 2)) (.ok ()) (.ok (fun _ _ => .ok ())))
    (stableConnection (idRows 2)) 1 (.ok ()) rfl (by decide)
  have h2 := migrateToFirestore_closes_once
    (worldOf (stableConnection (idRows 2)) (.error (.other 1)) (.ok (fun _ _ => .ok ())))
    (stableConnection (idRows 2)) 1 (.error (.other 1)) rfl (by decide)
  have h3 := migrateToFirestore_closes_once
    (worldOf (fun _ _ _ _ => .error (.query 2)) (.ok ()) (.ok (fun _ _ => .ok ())))
    (fun _ _ _ _ => .error (.query 2)) 1 (.error (.query 2)) rfl (by decide)
  have h4 := migrateToFirestore_closes_once
    (worldOf (stableConnection (idRows 2)) (.ok ()) (.error (.other 3)))
    (stableConnection (idRows 2)) 1 (.error (.other 3)) rfl (by decide)
  exact ⟨⟨h1.2.2.2.2.1 rfl, h1.1.trans (by decide)⟩,
    ⟨h2.2.2.2.2.1 rfl, h2.1.trans (by decide)⟩,
    ⟨h3.2.2.2.2.1 rfl, h3.1.trans (by decide)⟩,
    ⟨h4.2.2.2.2.1 rfl, h4.1.trans (by decide)⟩⟩

end Migration
